/-
Verification development for the evidence retrieval-and-scoring engine of
the Arabic-Fact-Checking repository.

The Python sources embedded here:
  - src/verification/evaluation/hungarian_meteor.py  (AVeriTeCEvaluator)
  - src/verification/evaluation/utils.py             (compute_all_pairwise_scores)
  - src/verification/evaluation/ev2r_recall.py       (EV2REvaluator)
  - src/retrieval/expected_evidence_retriever/utils.py
      (find_published_date, extract_published_date, retrieve_potential_evidence,
       retrieve_external_evidence, is_relevant_result,
       process_arabic_claim_for_search)

External collaborators (scipy's linear_sum_assignment, dateutil's parser,
the DuckDuckGo search, the HTML scraper, json.loads, the METEOR metric) are
modelled as explicit parameters or as small abstract data, as described at
each definition.  Machine floats are modelled by rationals; timestamps by
integers.
-/
import Mathlib

namespace AFCheck

/-! ## Maximum of a list of rationals -/

/-- Maximum of a list of rationals; `0` for the empty list.  Used only on
lists that are nonempty by construction. -/
def listMax : List ℚ → ℚ
  | [] => 0
  | x :: xs => xs.foldl max x

lemma le_foldl_max (init : ℚ) (l : List ℚ) : init ≤ l.foldl max init := by
  induction l generalizing init with
  | nil => exact le_refl _
  | cons a l ih => exact le_trans (le_max_left init a) (ih (max init a))

lemma mem_le_foldl_max (init : ℚ) (l : List ℚ) (a : ℚ) (ha : a ∈ l) :
    a ≤ l.foldl max init := by
  induction l generalizing init with
  | nil => cases ha
  | cons b l ih =>
    rcases List.mem_cons.mp ha with h | h
    · subst h; exact le_trans (le_max_right init a) (le_foldl_max _ _)
    · exact ih (max init b) h

lemma foldl_max_le (init c : ℚ) (l : List ℚ) (h0 : init ≤ c)
    (h : ∀ a ∈ l, a ≤ c) : l.foldl max init ≤ c := by
  induction l generalizing init with
  | nil => exact h0
  | cons a l ih =>
    exact ih (max init a) (max_le h0 (h a (List.mem_cons_self a l)))
      (fun b hb => h b (List.mem_cons_of_mem a hb))

lemma foldl_max_eq_init_or_mem (init : ℚ) (l : List ℚ) :
    l.foldl max init = init ∨ l.foldl max init ∈ l := by
  induction l generalizing init with
  | nil => exact Or.inl rfl
  | cons a l ih =>
    rcases ih (max init a) with h | h
    · rcases max_choice init a with hm | hm
      · exact Or.inl (h.trans hm)
      · exact Or.inr (List.mem_cons.mpr (Or.inl (h.trans hm)))
    · exact Or.inr (List.mem_cons_of_mem a h)

lemma le_listMax_head (x : ℚ) (xs : List ℚ) : x ≤ listMax (x :: xs) :=
  le_foldl_max x xs

lemma le_listMax_of_mem {a x : ℚ} {xs : List ℚ} (h : a ∈ x :: xs) :
    a ≤ listMax (x :: xs) := by
  rcases List.mem_cons.mp h with h | h
  · subst h; exact le_listMax_head a xs
  · exact mem_le_foldl_max x xs a h

lemma listMax_le {x c : ℚ} {xs : List ℚ} (h0 : x ≤ c) (h : ∀ a ∈ xs, a ≤ c) :
    listMax (x :: xs) ≤ c :=
  foldl_max_le x c xs h0 h

lemma listMax_eq_head_or_mem (x : ℚ) (xs : List ℚ) :
    listMax (x :: xs) = x ∨ listMax (x :: xs) ∈ xs :=
  foldl_max_eq_init_or_mem x xs

/-! ## Optimal one-to-one assignment over a similarity matrix

A matrix is a list of rows (the prediction side); `avail` is the list of
still-available column indices (the reference side).  `bestMatchValue`
computes the greatest total weight of a one-to-one partial matching.
`lsaValue` computes the greatest total weight over complete matchings of
cardinality `min m n`, which is the documented semantics of
`scipy.optimize.linear_sum_assignment(maximize=True)` followed by summing
the matched entries; the two coincide on matrices with nonnegative entries
(`lsaValue_eq_bestMatchValue`), which covers every metric the repository
uses (METEOR scores lie in `[0, 1]`). -/

/-- One step of `bestMatchValue`: either skip the head row or match it to
one of the available columns. -/
def bestStep (r : List ℚ) (mm : List ℕ → ℚ) (avail : List ℕ) : ℚ :=
  listMax (mm avail :: avail.map (fun j => r.getD j 0 + mm (avail.erase j)))

/-- Greatest total weight over all one-to-one partial matchings of the rows
of the matrix to the available column indices. -/
def bestMatchValue : List (List ℚ) → List ℕ → ℚ
  | [] => fun _ => 0
  | r :: rs => bestStep r (bestMatchValue rs)

lemma bestMatchValue_cons (r : List ℚ) (rs : List (List ℚ)) (avail : List ℕ) :
    bestMatchValue (r :: rs) avail =
      listMax (bestMatchValue rs avail ::
        avail.map (fun j => r.getD j 0 + bestMatchValue rs (avail.erase j))) := rfl

/-- One step of `lsaValue`: the head row may be skipped only when fewer
columns than remaining rows are available. -/
def lsaStep (r : List ℚ) (mm : List ℕ → ℚ) (tailLen : ℕ) (avail : List ℕ) : ℚ :=
  if avail = [] then 0
  else if avail.length ≤ tailLen then
    listMax (mm avail :: avail.map (fun j => r.getD j 0 + mm (avail.erase j)))
  else
    listMax (avail.map (fun j => r.getD j 0 + mm (avail.erase j)))

/-- Models the summed matched weight of
`scipy.optimize.linear_sum_assignment(matrix, maximize=True)`: the greatest
total weight over complete matchings of cardinality `min m n` (a row may be
left unmatched only when fewer columns than rows remain). -/
def lsaValue : List (List ℚ) → List ℕ → ℚ
  | [] => fun _ => 0
  | r :: rs => lsaStep r (lsaValue rs) rs.length

lemma lsaValue_cons (r : List ℚ) (rs : List (List ℚ)) (avail : List ℕ) :
    lsaValue (r :: rs) avail =
      if avail = [] then 0
      else if avail.length ≤ rs.length then
        listMax (lsaValue rs avail ::
          avail.map (fun j => r.getD j 0 + lsaValue rs (avail.erase j)))
      else
        listMax (avail.map (fun j => r.getD j 0 + lsaValue rs (avail.erase j))) := rfl

/-- Total weight of a matching, given as a list of (row, column) pairs. -/
def matchWeight (rows : List (List ℚ)) (M : List (ℕ × ℕ)) : ℚ :=
  (M.map (fun p => (rows.getD p.1 []).getD p.2 0)).sum

/-- A one-to-one matching: each pair names a row of the matrix and an
available column, no row repeats and no column repeats. -/
def IsMatching (rows : List (List ℚ)) (avail : List ℕ) (M : List (ℕ × ℕ)) : Prop :=
  (∀ p ∈ M, p.1 < rows.length ∧ p.2 ∈ avail) ∧
    (M.map Prod.fst).Nodup ∧ (M.map Prod.snd).Nodup

lemma isMatching_nil_rows {avail : List ℕ} {M : List (ℕ × ℕ)}
    (h : IsMatching [] avail M) : M = [] := by
  cases M with
  | nil => rfl
  | cons p M =>
    exact absurd (h.1 p (List.mem_cons_self p M)).1 (by simp)

lemma matchWeight_nil (rows : List (List ℚ)) : matchWeight rows [] = 0 := rfl

/-- Shifting all row indices up by one moves a matching of `rs` to a
matching of `r :: rs` with the same weight. -/
lemma matchWeight_shiftUp (r : List ℚ) (rs : List (List ℚ)) (M : List (ℕ × ℕ)) :
    matchWeight (r :: rs) (M.map (fun p => (p.1 + 1, p.2))) = matchWeight rs M := by
  unfold matchWeight
  rw [List.map_map]
  congr 1

lemma isMatching_shiftUp {r : List ℚ} {rs : List (List ℚ)} {avail : List ℕ}
    {M : List (ℕ × ℕ)} (h : IsMatching rs avail M) :
    IsMatching (r :: rs) avail (M.map (fun p => (p.1 + 1, p.2))) := by
  obtain ⟨hb, hf, hs⟩ := h
  refine ⟨?_, ?_, ?_⟩
  · intro p hp
    rcases List.mem_map.mp hp with ⟨q, hq, rfl⟩
    exact ⟨by simpa using Nat.succ_lt_succ (hb q hq).1, (hb q hq).2⟩
  · rw [List.map_map]
    have : (Prod.fst ∘ fun p : ℕ × ℕ => (p.1 + 1, p.2)) =
        (fun n => n + 1) ∘ Prod.fst := rfl
    rw [this, ← List.map_map]
    exact hf.map Nat.succ_injective
  · rw [List.map_map]
    have : (Prod.snd ∘ fun p : ℕ × ℕ => (p.1 + 1, p.2)) = Prod.snd := rfl
    rw [this]
    exact hs

/-- Dropping the head row: a matching that does not use row `0` shifts down
to a matching of the tail. -/
lemma isMatching_shiftDown {r : List ℚ} {rs : List (List ℚ)} {avail : List ℕ}
    {M : List (ℕ × ℕ)} (h : IsMatching (r :: rs) avail M)
    (h0 : ∀ p ∈ M, p.1 ≠ 0) :
    IsMatching rs avail (M.map (fun p => (p.1 - 1, p.2))) ∧
      matchWeight rs (M.map (fun p => (p.1 - 1, p.2))) = matchWeight (r :: rs) M := by
  obtain ⟨hb, hf, hs⟩ := h
  refine ⟨⟨?_, ?_, ?_⟩, ?_⟩
  · intro p hp
    rcases List.mem_map.mp hp with ⟨q, hq, rfl⟩
    have h1 := (hb q hq).1
    have h2 := h0 q hq
    exact ⟨by simp only [List.length_cons] at h1; omega, (hb q hq).2⟩
  · rw [List.map_map]
    have heq : (Prod.fst ∘ fun p : ℕ × ℕ => (p.1 - 1, p.2)) =
        (fun n => n - 1) ∘ Prod.fst := rfl
    rw [heq, ← List.map_map]
    refine hf.map_on ?_
    intro x hx y hy hxy
    rcases List.mem_map.mp hx with ⟨p, hp, rfl⟩
    rcases List.mem_map.mp hy with ⟨q, hq, rfl⟩
    have := h0 p hp
    have := h0 q hq
    omega
  · rw [List.map_map]
    have heq : (Prod.snd ∘ fun p : ℕ × ℕ => (p.1 - 1, p.2)) = Prod.snd := rfl
    rw [heq]; exact hs
  · unfold matchWeight
    rw [List.map_map]
    congr 1
    refine List.map_congr_left ?_
    intro p hp
    have h2 := h0 p hp
    simp only [Function.comp_apply]
    congr 1
    rcases p with ⟨i, j⟩
    simp only at h2 ⊢
    rcases i with _ | i
    · exact absurd rfl h2
    · simp [List.getD_cons_succ]

/-- Every one-to-one matching weighs at most `bestMatchValue`. -/
theorem matchWeight_le_bestMatchValue :
    ∀ (rows : List (List ℚ)) (avail : List ℕ) (M : List (ℕ × ℕ)),
      avail.Nodup → IsMatching rows avail M →
      matchWeight rows M ≤ bestMatchValue rows avail := by
  intro rows
  induction rows with
  | nil =>
    intro avail M _ hM
    rw [isMatching_nil_rows hM]
    exact le_refl 0
  | cons r rs ih =>
    intro avail M hnd hM
    by_cases h0 : ∀ p ∈ M, p.1 ≠ 0
    · obtain ⟨hM', hw⟩ := isMatching_shiftDown hM h0
      rw [← hw]
      calc matchWeight rs (M.map (fun p => (p.1 - 1, p.2)))
          ≤ bestMatchValue rs avail := ih avail _ hnd hM'
        _ ≤ _ := le_listMax_head _ _
    · push_neg at h0
      obtain ⟨p, hpM, hp0⟩ := h0
      rcases p with ⟨i, j⟩
      simp only at hp0
      subst hp0
      obtain ⟨M₁, hperm⟩ : ∃ M₁, M.Perm ((0, j) :: M₁) :=
        ⟨_, List.perm_cons_erase hpM⟩
      have hj : j ∈ avail := (hM.1 _ hpM).2
      have hmemM : ∀ q ∈ M₁, q ∈ M := fun q hq =>
        hperm.mem_iff.mpr (List.mem_cons_of_mem _ hq)
      have hwperm : matchWeight (r :: rs) M =
          r.getD j 0 + matchWeight (r :: rs) M₁ := by
        unfold matchWeight
        rw [(hperm.map _).sum_eq]
        simp [List.getD_cons_zero]
      have hf0 : ((0 :: M₁.map Prod.fst) : List ℕ).Nodup := by
        have := (hperm.map Prod.fst).nodup hM.2.1
        simpa using this
      have hsj : ((j :: M₁.map Prod.snd) : List ℕ).Nodup := by
        have := (hperm.map Prod.snd).nodup hM.2.2
        simpa using this
      have hM₁match : IsMatching (r :: rs) avail M₁ := by
        refine ⟨fun q hq => hM.1 q (hmemM q hq), ?_, ?_⟩
        · exact (List.nodup_cons.mp hf0).2
        · exact (List.nodup_cons.mp hsj).2
      have h0M₁ : ∀ q ∈ M₁, q.1 ≠ 0 := by
        intro q hq hq0
        have : q.1 ∈ M₁.map Prod.fst := List.mem_map_of_mem _ hq
        rw [hq0] at this
        exact (List.nodup_cons.mp hf0).1 this
      have hcolM₁ : ∀ q ∈ M₁, q.2 ∈ avail.erase j := by
        intro q hq
        refine (hnd.mem_erase_iff).mpr ⟨?_, (hM₁match.1 q hq).2⟩
        intro hqj
        have : q.2 ∈ M₁.map Prod.snd := List.mem_map_of_mem _ hq
        rw [hqj] at this
        exact (List.nodup_cons.mp hsj).1 this
      obtain ⟨hM₁', hw₁⟩ := isMatching_shiftDown
        (show IsMatching (r :: rs) (avail.erase j) M₁ from
          ⟨fun q hq => ⟨(hM₁match.1 q hq).1, hcolM₁ q hq⟩, hM₁match.2.1, hM₁match.2.2⟩)
        h0M₁
      have hle : matchWeight (r :: rs) M₁ ≤ bestMatchValue rs (avail.erase j) := by
        rw [← hw₁]
        exact ih _ _ (hnd.erase j) hM₁'
      rw [hwperm]
      have hmem : r.getD j 0 + bestMatchValue rs (avail.erase j) ∈
          avail.map (fun j => r.getD j 0 + bestMatchValue rs (avail.erase j)) :=
        List.mem_map_of_mem _ hj
      calc r.getD j 0 + matchWeight (r :: rs) M₁
          ≤ r.getD j 0 + bestMatchValue rs (avail.erase j) := by linarith
        _ ≤ _ := le_listMax_of_mem (List.mem_cons_of_mem _ hmem)

/-- Some one-to-one matching attains `bestMatchValue`. -/
theorem exists_matching_bestMatchValue :
    ∀ (rows : List (List ℚ)) (avail : List ℕ), avail.Nodup →
      ∃ M, IsMatching rows avail M ∧ matchWeight rows M = bestMatchValue rows avail := by
  intro rows
  induction rows with
  | nil =>
    intro avail _
    exact ⟨[], ⟨by simp, by simp, by simp⟩, rfl⟩
  | cons r rs ih =>
    intro avail hnd
    rcases listMax_eq_head_or_mem (bestMatchValue rs avail)
        (avail.map (fun j => r.getD j 0 + bestMatchValue rs (avail.erase j))) with h | h
    · obtain ⟨M, hM, hw⟩ := ih avail hnd
      refine ⟨M.map (fun p => (p.1 + 1, p.2)), isMatching_shiftUp hM, ?_⟩
      rw [matchWeight_shiftUp, hw]
      show bestMatchValue rs avail = bestMatchValue (r :: rs) avail
      rw [bestMatchValue_cons]
      exact h.symm
    · rcases List.mem_map.mp h with ⟨j, hj, hval⟩
      obtain ⟨M, hM, hw⟩ := ih (avail.erase j) (hnd.erase j)
      refine ⟨(0, j) :: M.map (fun p => (p.1 + 1, p.2)), ⟨?_, ?_, ?_⟩, ?_⟩
      · intro p hp
        rcases List.mem_cons.mp hp with rfl | hp
        · exact ⟨Nat.succ_pos _, hj⟩
        · rcases List.mem_map.mp hp with ⟨q, hq, rfl⟩
          exact ⟨by simpa using Nat.succ_lt_succ (hM.1 q hq).1,
            List.mem_of_mem_erase (hM.1 q hq).2⟩
      · rw [List.map_cons]
        refine List.nodup_cons.mpr ⟨?_, (isMatching_shiftUp (r := r) hM).2.1⟩
        intro hmem
        rw [List.map_map] at hmem
        rcases List.mem_map.mp hmem with ⟨q, _, hq0⟩
        simp only [Function.comp_apply] at hq0
        omega
      · rw [List.map_cons]
        refine List.nodup_cons.mpr ⟨?_, (isMatching_shiftUp (r := r) hM).2.2⟩
        intro hmem
        rw [List.map_map] at hmem
        rcases List.mem_map.mp hmem with ⟨q, hq, hq2⟩
        simp only [Function.comp_apply] at hq2
        have : q.2 ∈ avail.erase j := (hM.1 q hq).2
        rw [hq2] at this
        exact (hnd.mem_erase_iff.mp this).1 rfl
      · have hw2 : matchWeight (r :: rs) ((0, j) :: M.map (fun p => (p.1 + 1, p.2)))
            = r.getD j 0 + matchWeight rs M := by
          rw [← matchWeight_shiftUp r rs M]
          unfold matchWeight
          rw [List.map_cons, List.sum_cons, List.getD_cons_zero]
        rw [hw2, hw, hval]
        conv_rhs => rw [bestMatchValue_cons]

lemma isMatching_empty (rows : List (List ℚ)) (avail : List ℕ) :
    IsMatching rows avail [] := ⟨by simp, by simp, by simp⟩

lemma bestMatchValue_nonneg (rows : List (List ℚ)) (avail : List ℕ)
    (hnd : avail.Nodup) : 0 ≤ bestMatchValue rows avail :=
  matchWeight_le_bestMatchValue rows avail [] hnd (isMatching_empty rows avail)

lemma bestMatchValue_nil_avail (rows : List (List ℚ)) :
    bestMatchValue rows [] = 0 := by
  induction rows with
  | nil => rfl
  | cons r rs ih => rw [bestMatchValue_cons, List.map_nil]; exact ih

lemma bestMatchValue_erase_le (rows : List (List ℚ)) (avail : List ℕ) (j : ℕ)
    (hnd : avail.Nodup) :
    bestMatchValue rows (avail.erase j) ≤ bestMatchValue rows avail := by
  obtain ⟨M, hM, hw⟩ := exists_matching_bestMatchValue rows (avail.erase j) (hnd.erase j)
  rw [← hw]
  refine matchWeight_le_bestMatchValue rows avail M hnd
    ⟨fun p hp => ⟨(hM.1 p hp).1, List.mem_of_mem_erase (hM.1 p hp).2⟩, hM.2.1, hM.2.2⟩

lemma isMatching_length_le {rows : List (List ℚ)} {avail : List ℕ}
    {M : List (ℕ × ℕ)} (hM : IsMatching rows avail M) : M.length ≤ rows.length := by
  have h1 : (M.map Prod.fst).toFinset ⊆ Finset.range rows.length := by
    intro x hx
    rcases List.mem_map.mp (List.mem_toFinset.mp hx) with ⟨p, hp, rfl⟩
    exact Finset.mem_range.mpr (hM.1 p hp).1
  have h2 := Finset.card_le_card h1
  rw [List.toFinset_card_of_nodup hM.2.1, Finset.card_range, List.length_map] at h2
  exact h2

lemma exists_unused_col {rows : List (List ℚ)} {avail : List ℕ}
    {M : List (ℕ × ℕ)} (hnd : avail.Nodup) (_hM : IsMatching rows avail M)
    (hlt : M.length < avail.length) : ∃ j ∈ avail, j ∉ M.map Prod.snd := by
  by_contra hcon
  push_neg at hcon
  have hsub : avail.toFinset ⊆ (M.map Prod.snd).toFinset := by
    intro x hx
    exact List.mem_toFinset.mpr (hcon x (List.mem_toFinset.mp hx))
  have h2 := Finset.card_le_card hsub
  rw [List.toFinset_card_of_nodup hnd] at h2
  have h3 := List.toFinset_card_le (M.map Prod.snd)
  rw [List.length_map] at h3
  omega

lemma getD_nonneg_of_row {r : List ℚ} (hr : ∀ v ∈ r, 0 ≤ v) (j : ℕ) :
    0 ≤ r.getD j 0 := by
  by_cases hj : j < r.length
  · rw [List.getD_eq_getElem _ _ hj]
    exact hr _ (List.getElem_mem hj)
  · rw [List.getD_eq_default _ _ (by omega)]

/-- On matrices with nonnegative entries, the complete-assignment optimum of
`linear_sum_assignment` coincides with the unconstrained one-to-one optimum:
leaving a row unmatched never helps when weights cannot be negative. -/
theorem lsaValue_eq_bestMatchValue :
    ∀ (rows : List (List ℚ)) (avail : List ℕ), avail.Nodup →
      (∀ row ∈ rows, ∀ v ∈ row, 0 ≤ v) →
      lsaValue rows avail = bestMatchValue rows avail := by
  intro rows
  induction rows with
  | nil => intro avail _ _; rfl
  | cons r rs ih =>
    intro avail hnd hnn
    have hnnrs : ∀ row ∈ rs, ∀ v ∈ row, 0 ≤ v :=
      fun row hrow => hnn row (List.mem_cons_of_mem r hrow)
    have hnnr : ∀ v ∈ r, 0 ≤ v := hnn r (List.mem_cons_self r rs)
    by_cases hav : avail = []
    · subst hav
      rw [lsaValue_cons, if_pos rfl, bestMatchValue_nil_avail]
    · rw [lsaValue_cons, if_neg hav]
      by_cases hle : avail.length ≤ rs.length
      · rw [if_pos hle, bestMatchValue_cons]
        congr 1
        rw [ih avail hnd hnnrs]
        congr 1
        refine List.map_congr_left ?_
        intro j hj
        rw [ih (avail.erase j) (hnd.erase j) hnnrs]
      · rw [if_neg hle, bestMatchValue_cons]
        rw [show (avail.map fun j => r.getD j 0 + lsaValue rs (avail.erase j)) =
            (avail.map fun j => r.getD j 0 + bestMatchValue rs (avail.erase j)) from
          List.map_congr_left fun j hj => by
            rw [ih (avail.erase j) (hnd.erase j) hnnrs]]
        cases havail : avail with
        | nil => exact absurd havail hav
        | cons a rest =>
          rw [← havail]
          have hmapne : avail.map (fun j =>
              r.getD j 0 + bestMatchValue rs (avail.erase j)) ≠ [] := by
            rw [havail]; simp
          obtain ⟨x, xs, hxs⟩ :
              ∃ x xs, avail.map (fun j =>
                r.getD j 0 + bestMatchValue rs (avail.erase j)) = x :: xs := by
            cases hm : avail.map (fun j =>
                r.getD j 0 + bestMatchValue rs (avail.erase j)) with
            | nil => exact absurd hm hmapne
            | cons x xs => exact ⟨x, xs, rfl⟩
          rw [hxs]
          have hhead : bestMatchValue rs avail ≤ listMax (x :: xs) := by
            obtain ⟨M, hM, hw⟩ := exists_matching_bestMatchValue rs avail hnd
            have hlen : M.length < avail.length := by
              have := isMatching_length_le hM
              omega
            obtain ⟨j, hjav, hjun⟩ := exists_unused_col hnd hM hlen
            have hMe : IsMatching rs (avail.erase j) M := by
              refine ⟨fun p hp => ⟨(hM.1 p hp).1, ?_⟩, hM.2.1, hM.2.2⟩
              refine hnd.mem_erase_iff.mpr ⟨?_, (hM.1 p hp).2⟩
              intro hpj
              exact hjun (hpj ▸ List.mem_map_of_mem Prod.snd hp)
            have h1 : bestMatchValue rs avail ≤ bestMatchValue rs (avail.erase j) := by
              rw [← hw]
              exact matchWeight_le_bestMatchValue rs (avail.erase j) M (hnd.erase j) hMe
            have h2 : bestMatchValue rs (avail.erase j) ≤
                r.getD j 0 + bestMatchValue rs (avail.erase j) := by
              have := getD_nonneg_of_row hnnr j
              linarith
            have h3 : r.getD j 0 + bestMatchValue rs (avail.erase j) ∈ x :: xs := by
              rw [← hxs]
              exact List.mem_map_of_mem _ hjav
            exact le_trans h1 (le_trans h2 (le_listMax_of_mem h3))
          have h4 : listMax (bestMatchValue rs avail :: x :: xs) = listMax (x :: xs) := by
            refine le_antisymm ?_ ?_
            · exact listMax_le hhead (fun a ha => le_listMax_of_mem ha)
            · rcases listMax_eq_head_or_mem x xs with he | he
              · rw [he]
                exact le_listMax_of_mem
                  (List.mem_cons_of_mem _ (List.mem_cons_self x xs))
              · exact le_listMax_of_mem
                  (List.mem_cons_of_mem _ (List.mem_cons_of_mem x he))
          rw [← h4]

/-! ## AVeriTeCEvaluator (src/verification/evaluation/hungarian_meteor.py)

A Python QA-pair list may mix dictionaries with the empty string (the code
guards every element with `if qa_pair != ""`), so an entry is either
`emptyStr` or a `pair question answer`.  A `None` prediction list behaves
exactly like the empty list (`if pred_evidence:` guards the loop), so
prediction evidence is modelled as a plain list.  The pairwise metric
(`pairwise_meteor`, an external NLTK computation with values in `[0, 1]`)
is a parameter. -/

/-- One element of a `retrieved_qa_pairs` / `qa_pairs` list. -/
inductive QAEntry
  | emptyStr
  | pair (question answer : String)
deriving DecidableEq

/-- The string `question + " " + answer` built for a non-empty entry
(`hungarian_meteor.py` lines 111-116 and 124-128). -/
def qaString : QAEntry → Option String
  | .emptyStr => none
  | .pair q a => some (q ++ " " ++ a)

/-- The class constant `max_questions = 10`. -/
def max_questions : ℕ := 10

/-- The truncated prediction strings `src_strings[:max_questions]`
(`hungarian_meteor.py` lines 108-118). -/
def srcStrings (pred : List QAEntry) : List String :=
  (pred.filterMap qaString).take max_questions

/-- The reference strings `tgt_strings` (never truncated,
`hungarian_meteor.py` lines 121-128). -/
def tgtStrings (gold : List QAEntry) : List String :=
  gold.filterMap qaString

/-- Embedding of `compute_all_pairwise_scores` (`utils.py` lines 92-99):
the full cross-product similarity matrix. -/
def compute_all_pairwise_scores (metric : String → String → ℚ)
    (src tgt : List String) : List (List ℚ) :=
  src.map (fun s => tgt.map (fun t => metric s t))

/-- The assignment-utility core shared verbatim by
`compute_pairwise_evidence_score`, `evaluate_questions_only` and
`evaluate_questions_and_answers`: solve the optimal assignment over the
pairwise matrix, sum the matched weights, multiply by
`1 / len(tgt)`.  `none` models the `ZeroDivisionError` raised by
`1 / float(len(tgt))` when the reference side is empty. -/
def assignmentScore (metric : String → String → ℚ) (ss ts : List String) :
    Option ℚ :=
  let pairwise := compute_all_pairwise_scores metric ss ts
  let util := lsaValue pairwise (List.range ts.length)
  if ts.length = 0 then none else some (util * (1 / (ts.length : ℚ)))

/-- Embedding of `AVeriTeCEvaluator.compute_pairwise_evidence_score`
(`hungarian_meteor.py` lines 81-142); `evaluate_questions_and_answers`
computes the identical per-claim utility (lines 144-188). -/
def compute_pairwise_evidence_score (metric : String → String → ℚ)
    (pred gold : List QAEntry) : Option ℚ :=
  assignmentScore metric (srcStrings pred) (tgtStrings gold)

/-- The question-accumulation step of `evaluate_questions_only`
(`hungarian_meteor.py` lines 46-62): keep a question only if it is not
already collected (first occurrence wins). -/
def addUniqueQuestion (acc : List String) (e : QAEntry) : List String :=
  match e with
  | .emptyStr => acc
  | .pair q _ => if q ∈ acc then acc else acc ++ [q]

/-- Deduplicated question list, first occurrences first. -/
def collectQuestions (l : List QAEntry) : List String :=
  l.foldl addUniqueQuestion []

/-- The truncated prediction questions `src_questions[:max_questions]`. -/
def srcQuestions (pred : List QAEntry) : List String :=
  (collectQuestions pred).take max_questions

/-- The reference questions (deduplicated, never truncated). -/
def tgtQuestions (gold : List QAEntry) : List String :=
  collectQuestions gold

/-- Per-claim utility of `AVeriTeCEvaluator.evaluate_questions_only`
(`hungarian_meteor.py` lines 38-79). -/
def questions_only_utility (metric : String → String → ℚ)
    (pred gold : List QAEntry) : Option ℚ :=
  assignmentScore metric (srcQuestions pred) (tgtQuestions gold)

lemma compute_all_pairwise_scores_nonneg {metric : String → String → ℚ}
    (hnn : ∀ a b, 0 ≤ metric a b) (ss ts : List String) :
    ∀ row ∈ compute_all_pairwise_scores metric ss ts, ∀ v ∈ row, 0 ≤ v := by
  intro row hrow v hv
  rcases List.mem_map.mp hrow with ⟨s, _, rfl⟩
  rcases List.mem_map.mp hv with ⟨t, _, rfl⟩
  exact hnn s t

/-- Characterization of the assignment-utility core: when the reference
side is nonempty and the metric is nonnegative, the returned utility times
the reference count is exactly the value of an optimal (maximum-weight,
one-to-one) assignment, and an empty prediction side scores 0. -/
lemma assignmentScore_spec (metric : String → String → ℚ)
    (hnn : ∀ a b, 0 ≤ metric a b) (ss ts : List String) (hts : ts ≠ []) :
    ∃ u, assignmentScore metric ss ts = some u ∧
      (∃ M, IsMatching (compute_all_pairwise_scores metric ss ts)
          (List.range ts.length) M ∧
          matchWeight (compute_all_pairwise_scores metric ss ts) M =
            u * (ts.length : ℚ)) ∧
      (∀ M, IsMatching (compute_all_pairwise_scores metric ss ts)
          (List.range ts.length) M →
          matchWeight (compute_all_pairwise_scores metric ss ts) M ≤
            u * (ts.length : ℚ)) ∧
      (ss = [] → u = 0) := by
  have hn : ts.length ≠ 0 := fun h => hts (List.length_eq_zero.mp h)
  have hnQ : (ts.length : ℚ) ≠ 0 := Nat.cast_ne_zero.mpr hn
  set pairwise := compute_all_pairwise_scores metric ss ts with hpw
  have hnd := List.nodup_range ts.length
  have hval : lsaValue pairwise (List.range ts.length) =
      bestMatchValue pairwise (List.range ts.length) :=
    lsaValue_eq_bestMatchValue pairwise (List.range ts.length) hnd
      (compute_all_pairwise_scores_nonneg hnn ss ts)
  refine ⟨lsaValue pairwise (List.range ts.length) * (1 / (ts.length : ℚ)),
    ?_, ?_, ?_, ?_⟩
  · unfold assignmentScore
    rw [if_neg hn]
  · obtain ⟨M, hM, hw⟩ :=
      exists_matching_bestMatchValue pairwise (List.range ts.length) hnd
    refine ⟨M, hM, ?_⟩
    rw [hw, hval]
    field_simp
  · intro M hM
    have := matchWeight_le_bestMatchValue pairwise (List.range ts.length) M hnd hM
    rw [← hval] at this
    calc matchWeight pairwise M ≤ lsaValue pairwise (List.range ts.length) := this
      _ = lsaValue pairwise (List.range ts.length) * (1 / (ts.length : ℚ)) *
          (ts.length : ℚ) := by field_simp
  · intro hss
    have : pairwise = [] := by
      rw [hpw, hss]; rfl
    rw [this]
    show lsaValue [] (List.range ts.length) * (1 / (ts.length : ℚ)) = 0
    show (0 : ℚ) * (1 / (ts.length : ℚ)) = 0
    ring

/-- C1: the evidence-quality utility equals the optimal (maximum-weight,
one-to-one) assignment value over the pairwise-similarity matrix multiplied
by `1 / n` where `n` is the reference-set size; `m = 0` gives a zero-row
matrix and utility exactly `0`; `n = 0` makes the operation undefined
(division by zero, modelled as `none`).  Stated both for
`compute_pairwise_evidence_score` (shared by the questions-and-answers
evaluator) and for the questions-only variant. -/
theorem c1_evidence_score_is_optimal_assignment
    (metric : String → String → ℚ) (pred gold : List QAEntry)
    (hnn : ∀ a b, 0 ≤ metric a b) :
    (tgtStrings gold = [] →
      compute_pairwise_evidence_score metric pred gold = none) ∧
    (tgtStrings gold ≠ [] →
      ∃ u, compute_pairwise_evidence_score metric pred gold = some u ∧
        (∃ M, IsMatching (compute_all_pairwise_scores metric (srcStrings pred)
            (tgtStrings gold)) (List.range (tgtStrings gold).length) M ∧
            matchWeight (compute_all_pairwise_scores metric (srcStrings pred)
              (tgtStrings gold)) M = u * ((tgtStrings gold).length : ℚ)) ∧
        (∀ M, IsMatching (compute_all_pairwise_scores metric (srcStrings pred)
            (tgtStrings gold)) (List.range (tgtStrings gold).length) M →
            matchWeight (compute_all_pairwise_scores metric (srcStrings pred)
              (tgtStrings gold)) M ≤ u * ((tgtStrings gold).length : ℚ)) ∧
        (srcStrings pred = [] → u = 0)) ∧
    (tgtQuestions gold = [] →
      questions_only_utility metric pred gold = none) ∧
    (tgtQuestions gold ≠ [] →
      ∃ u, questions_only_utility metric pred gold = some u ∧
        (∃ M, IsMatching (compute_all_pairwise_scores metric (srcQuestions pred)
            (tgtQuestions gold)) (List.range (tgtQuestions gold).length) M ∧
            matchWeight (compute_all_pairwise_scores metric (srcQuestions pred)
              (tgtQuestions gold)) M = u * ((tgtQuestions gold).length : ℚ)) ∧
        (∀ M, IsMatching (compute_all_pairwise_scores metric (srcQuestions pred)
            (tgtQuestions gold)) (List.range (tgtQuestions gold).length) M →
            matchWeight (compute_all_pairwise_scores metric (srcQuestions pred)
              (tgtQuestions gold)) M ≤ u * ((tgtQuestions gold).length : ℚ)) ∧
        (srcQuestions pred = [] → u = 0)) := by
  refine ⟨?_, ?_, ?_, ?_⟩
  · intro h
    unfold compute_pairwise_evidence_score assignmentScore
    rw [h]
    rfl
  · intro h
    exact assignmentScore_spec metric hnn (srcStrings pred) (tgtStrings gold) h
  · intro h
    unfold questions_only_utility assignmentScore
    rw [h]
    rfl
  · intro h
    exact assignmentScore_spec metric hnn (srcQuestions pred) (tgtQuestions gold) h

/-- Witness for C1 at a concrete input: a single prediction pair against a
single reference pair under the constant metric `1`. -/
theorem c1_evidence_score_is_optimal_assignment_witness :
    ∃ u, compute_pairwise_evidence_score (fun _ _ => 1)
        [QAEntry.pair "a" "b"] [QAEntry.pair "c" "d"] = some u ∧
      (∃ M, IsMatching (compute_all_pairwise_scores (fun _ _ => 1)
          (srcStrings [QAEntry.pair "a" "b"]) (tgtStrings [QAEntry.pair "c" "d"]))
          (List.range (tgtStrings [QAEntry.pair "c" "d"]).length) M ∧
          matchWeight (compute_all_pairwise_scores (fun _ _ => 1)
            (srcStrings [QAEntry.pair "a" "b"]) (tgtStrings [QAEntry.pair "c" "d"])) M =
            u * ((tgtStrings [QAEntry.pair "c" "d"]).length : ℚ)) ∧
      (∀ M, IsMatching (compute_all_pairwise_scores (fun _ _ => 1)
          (srcStrings [QAEntry.pair "a" "b"]) (tgtStrings [QAEntry.pair "c" "d"]))
          (List.range (tgtStrings [QAEntry.pair "c" "d"]).length) M →
          matchWeight (compute_all_pairwise_scores (fun _ _ => 1)
            (srcStrings [QAEntry.pair "a" "b"]) (tgtStrings [QAEntry.pair "c" "d"])) M ≤
            u * ((tgtStrings [QAEntry.pair "c" "d"]).length : ℚ)) ∧
      (srcStrings [QAEntry.pair "a" "b"] = [] → u = 0) :=
  (c1_evidence_score_is_optimal_assignment (fun _ _ => 1)
    [QAEntry.pair "a" "b"] [QAEntry.pair "c" "d"]
    (fun _ _ => by norm_num)).2.1 (by with_unfolding_all decide)

/-! ## Permutation invariance of the optimal assignment -/

lemma perm_index_map {α : Type} (d : α) {l1 l2 : List α} (h : l1.Perm l2) :
    ∃ g : ℕ → ℕ, (∀ i, i < l1.length → g i < l2.length) ∧
      (∀ i k, i < l1.length → k < l1.length → g i = g k → i = k) ∧
      (∀ i, i < l1.length → l2.getD (g i) d = l1.getD i d) := by
  induction h with
  | nil => exact ⟨id, by simp, by simp, by simp⟩
  | cons x h ih =>
    obtain ⟨g, hb, hinj, hv⟩ := ih
    refine ⟨fun i => match i with | 0 => 0 | i + 1 => g i + 1, ?_, ?_, ?_⟩
    · intro i hi
      match i with
      | 0 => simp
      | i + 1 =>
        simp only [List.length_cons] at hi ⊢
        exact Nat.succ_lt_succ (hb i (by omega))
    · intro i k hi hk hik
      match i, k with
      | 0, 0 => rfl
      | 0, k + 1 => simp at hik
      | i + 1, 0 => simp at hik
      | i + 1, k + 1 =>
        simp only [List.length_cons] at hi hk
        simp only [Nat.add_right_cancel_iff] at hik
        exact congrArg (· + 1) (hinj i k (by omega) (by omega) hik)
    · intro i hi
      match i with
      | 0 => rfl
      | i + 1 =>
        simp only [List.length_cons] at hi
        show List.getD _ (g i + 1) d = _
        rw [List.getD_cons_succ, List.getD_cons_succ]
        exact hv i (by omega)
  | swap x y l =>
    refine ⟨fun i => if i = 0 then 1 else if i = 1 then 0 else i, ?_, ?_, ?_⟩
    · intro i hi
      simp only [List.length_cons] at hi ⊢
      by_cases h0 : i = 0
      · simp [h0]
      · by_cases h1 : i = 1
        · simp [h0, h1]
        · simp [h0, h1]
          omega
    · intro i k hi hk hik
      by_cases hi0 : i = 0 <;> by_cases hk0 : k = 0 <;>
        by_cases hi1 : i = 1 <;> by_cases hk1 : k = 1 <;>
        simp_all
    · intro i hi
      by_cases h0 : i = 0
      · subst h0; simp
      · by_cases h1 : i = 1
        · subst h1; simp
        · match i, h0, h1 with
          | i + 2, _, _ =>
            simp only [if_neg (by omega : ¬ i + 2 = 0), if_neg (by omega : ¬ i + 2 = 1)]
            rw [List.getD_cons_succ, List.getD_cons_succ,
              List.getD_cons_succ, List.getD_cons_succ]
  | trans h1 h2 ih1 ih2 =>
    obtain ⟨g1, hb1, hinj1, hv1⟩ := ih1
    obtain ⟨g2, hb2, hinj2, hv2⟩ := ih2
    refine ⟨g2 ∘ g1, ?_, ?_, ?_⟩
    · intro i hi
      exact hb2 _ (hb1 i hi)
    · intro i k hi hk hik
      exact hinj1 i k hi hk (hinj2 _ _ (hb1 i hi) (hb1 k hk) hik)
    · intro i hi
      rw [Function.comp_apply, hv2 _ (hb1 i hi), hv1 i hi]

lemma bestMatchValue_le_of_rowMap {rows1 rows2 : List (List ℚ)}
    {avail : List ℕ} (hnd : avail.Nodup) (g : ℕ → ℕ)
    (hb : ∀ i, i < rows1.length → g i < rows2.length)
    (hinj : ∀ i k, i < rows1.length → k < rows1.length → g i = g k → i = k)
    (hv : ∀ i, i < rows1.length → rows2.getD (g i) [] = rows1.getD i []) :
    bestMatchValue rows1 avail ≤ bestMatchValue rows2 avail := by
  obtain ⟨M, hM, hw⟩ := exists_matching_bestMatchValue rows1 avail hnd
  rw [← hw]
  have hM2 : IsMatching rows2 avail (M.map (fun p => (g p.1, p.2))) := by
    refine ⟨?_, ?_, ?_⟩
    · intro p hp
      rcases List.mem_map.mp hp with ⟨q, hq, rfl⟩
      exact ⟨hb q.1 (hM.1 q hq).1, (hM.1 q hq).2⟩
    · rw [List.map_map]
      have heq : (Prod.fst ∘ fun p : ℕ × ℕ => (g p.1, p.2)) = g ∘ Prod.fst := rfl
      rw [heq, ← List.map_map]
      refine hM.2.1.map_on ?_
      intro x hx y hy hxy
      rcases List.mem_map.mp hx with ⟨p, hp, rfl⟩
      rcases List.mem_map.mp hy with ⟨q, hq, rfl⟩
      exact hinj p.1 q.1 (hM.1 p hp).1 (hM.1 q hq).1 hxy
    · rw [List.map_map]
      have heq : (Prod.snd ∘ fun p : ℕ × ℕ => (g p.1, p.2)) = Prod.snd := rfl
      rw [heq]
      exact hM.2.2
  have hweq : matchWeight rows2 (M.map (fun p => (g p.1, p.2))) =
      matchWeight rows1 M := by
    unfold matchWeight
    rw [List.map_map]
    congr 1
    refine List.map_congr_left ?_
    intro p hp
    simp only [Function.comp_apply]
    rw [hv p.1 (hM.1 p hp).1]
  rw [← hweq]
  exact matchWeight_le_bestMatchValue rows2 avail _ hnd hM2

lemma bestMatchValue_rows_perm {rows1 rows2 : List (List ℚ)} {avail : List ℕ}
    (hnd : avail.Nodup) (h : rows1.Perm rows2) :
    bestMatchValue rows1 avail = bestMatchValue rows2 avail := by
  refine le_antisymm ?_ ?_
  · obtain ⟨g, hb, hinj, hv⟩ := perm_index_map ([] : List ℚ) h
    exact bestMatchValue_le_of_rowMap hnd g hb hinj hv
  · obtain ⟨g, hb, hinj, hv⟩ := perm_index_map ([] : List ℚ) h.symm
    exact bestMatchValue_le_of_rowMap hnd g hb hinj hv

lemma bestMatchValue_le_of_colMap {rows1 rows2 : List (List ℚ)} {n1 n2 : ℕ}
    (g : ℕ → ℕ) (hlen : rows2.length = rows1.length)
    (hb : ∀ j, j < n1 → g j < n2)
    (hinj : ∀ j k, j < n1 → k < n1 → g j = g k → j = k)
    (hv : ∀ i j, i < rows1.length → j < n1 →
      (rows2.getD i []).getD (g j) 0 = (rows1.getD i []).getD j 0) :
    bestMatchValue rows1 (List.range n1) ≤ bestMatchValue rows2 (List.range n2) := by
  obtain ⟨M, hM, hw⟩ :=
    exists_matching_bestMatchValue rows1 (List.range n1) (List.nodup_range n1)
  rw [← hw]
  have hM2 : IsMatching rows2 (List.range n2) (M.map (fun p => (p.1, g p.2))) := by
    refine ⟨?_, ?_, ?_⟩
    · intro p hp
      rcases List.mem_map.mp hp with ⟨q, hq, rfl⟩
      refine ⟨by rw [hlen]; exact (hM.1 q hq).1, ?_⟩
      exact List.mem_range.mpr (hb q.2 (List.mem_range.mp (hM.1 q hq).2))
    · rw [List.map_map]
      have heq : (Prod.fst ∘ fun p : ℕ × ℕ => (p.1, g p.2)) = Prod.fst := rfl
      rw [heq]
      exact hM.2.1
    · rw [List.map_map]
      have heq : (Prod.snd ∘ fun p : ℕ × ℕ => (p.1, g p.2)) = g ∘ Prod.snd := rfl
      rw [heq, ← List.map_map]
      refine hM.2.2.map_on ?_
      intro x hx y hy hxy
      rcases List.mem_map.mp hx with ⟨p, hp, rfl⟩
      rcases List.mem_map.mp hy with ⟨q, hq, rfl⟩
      exact hinj p.2 q.2 (List.mem_range.mp (hM.1 p hp).2)
        (List.mem_range.mp (hM.1 q hq).2) hxy
  have hweq : matchWeight rows2 (M.map (fun p => (p.1, g p.2))) =
      matchWeight rows1 M := by
    unfold matchWeight
    rw [List.map_map]
    congr 1
    refine List.map_congr_left ?_
    intro p hp
    simp only [Function.comp_apply]
    exact hv p.1 p.2 (hM.1 p hp).1 (List.mem_range.mp (hM.1 p hp).2)
  rw [← hweq]
  exact matchWeight_le_bestMatchValue rows2 (List.range n2) _ (List.nodup_range n2) hM2

lemma getD_map_of_lt {α β : Type} (f : α → β) (l : List α) (j : ℕ)
    (hj : j < l.length) (d : β) (d0 : α) :
    (l.map f).getD j d = f (l.getD j d0) := by
  rw [List.getD_eq_getElem _ _ (by simpa using hj), List.getD_eq_getElem _ _ hj,
    List.getElem_map]

/-- Core permutation-invariance of the assignment utility: if both string
sequences are permuted, the utility is unchanged (nonnegative metric). -/
lemma assignmentScore_perm (metric : String → String → ℚ)
    (hnn : ∀ a b, 0 ≤ metric a b) {ss1 ss2 ts1 ts2 : List String}
    (hs : ss1.Perm ss2) (ht : ts1.Perm ts2) :
    assignmentScore metric ss1 ts1 = assignmentScore metric ss2 ts2 := by
  have hnlen : ts1.length = ts2.length := ht.length_eq
  unfold assignmentScore
  by_cases hn : ts1.length = 0
  · rw [if_pos hn, if_pos (by omega)]
  · rw [if_neg hn, if_neg (by omega)]
    have hcoin1 := lsaValue_eq_bestMatchValue
      (compute_all_pairwise_scores metric ss1 ts1) (List.range ts1.length)
      (List.nodup_range _) (compute_all_pairwise_scores_nonneg hnn ss1 ts1)
    have hcoin2 := lsaValue_eq_bestMatchValue
      (compute_all_pairwise_scores metric ss2 ts2) (List.range ts2.length)
      (List.nodup_range _) (compute_all_pairwise_scores_nonneg hnn ss2 ts2)
    have hrow : bestMatchValue (compute_all_pairwise_scores metric ss1 ts1)
        (List.range ts1.length) =
        bestMatchValue (compute_all_pairwise_scores metric ss2 ts1)
        (List.range ts1.length) :=
      bestMatchValue_rows_perm (List.nodup_range _)
        (hs.map (fun s => ts1.map (metric s)))
    have hcol : bestMatchValue (compute_all_pairwise_scores metric ss2 ts1)
        (List.range ts1.length) =
        bestMatchValue (compute_all_pairwise_scores metric ss2 ts2)
        (List.range ts2.length) := by
      have hlen1 : (compute_all_pairwise_scores metric ss2 ts1).length = ss2.length := by
        simp [compute_all_pairwise_scores]
      have hlen2 : (compute_all_pairwise_scores metric ss2 ts2).length = ss2.length := by
        simp [compute_all_pairwise_scores]
      have hvgen : ∀ (ta tb : List String), ta.Perm tb →
          ∀ (g : ℕ → ℕ), (∀ j, j < ta.length → g j < tb.length) →
          (∀ j, j < ta.length → tb.getD (g j) "" = ta.getD j "") →
          ∀ i j, i < (compute_all_pairwise_scores metric ss2 ta).length →
            j < ta.length →
          ((compute_all_pairwise_scores metric ss2 tb).getD i []).getD (g j) 0 =
            ((compute_all_pairwise_scores metric ss2 ta).getD i []).getD j 0 := by
        intro ta tb htab g hgb hgv i j hi hj
        have hi2 : i < ss2.length := by
          simpa [compute_all_pairwise_scores] using hi
        unfold compute_all_pairwise_scores
        rw [getD_map_of_lt _ _ i (by exact hi2) [] ""]
        rw [getD_map_of_lt _ _ i (by exact hi2) [] ""]
        rw [getD_map_of_lt _ _ (g j) (hgb j hj) 0 ""]
        rw [getD_map_of_lt _ _ j hj 0 ""]
        rw [hgv j hj]
      refine le_antisymm ?_ ?_
      · obtain ⟨g, hb, hinj, hv⟩ := perm_index_map ("" : String) ht
        exact bestMatchValue_le_of_colMap g (by rw [hlen1, hlen2]) hb hinj
          (fun i j hi hj => hvgen ts1 ts2 ht g hb hv i j hi hj)
      · obtain ⟨g, hb, hinj, hv⟩ := perm_index_map ("" : String) ht.symm
        exact bestMatchValue_le_of_colMap g (by rw [hlen1, hlen2]) hb hinj
          (fun i j hi hj => hvgen ts2 ts1 ht.symm g hb hv i j hi hj)
    rw [hcoin1, hcoin2, hrow, hcol, hnlen]

lemma mem_foldl_addUniqueQuestion (l : List QAEntry) (acc : List String)
    (x : String) :
    x ∈ l.foldl addUniqueQuestion acc ↔ x ∈ acc ∨ ∃ a, QAEntry.pair x a ∈ l := by
  induction l generalizing acc with
  | nil => simp
  | cons e l ih =>
    rw [List.foldl_cons, ih]
    cases e with
    | emptyStr =>
      show x ∈ acc ∨ _ ↔ _
      constructor
      · rintro (h | ⟨a, ha⟩)
        · exact Or.inl h
        · exact Or.inr ⟨a, List.mem_cons_of_mem _ ha⟩
      · rintro (h | ⟨a, ha⟩)
        · exact Or.inl h
        · rcases List.mem_cons.mp ha with heq | ha
          · cases heq
          · exact Or.inr ⟨a, ha⟩
    | pair q a0 =>
      have hstep : addUniqueQuestion acc (QAEntry.pair q a0) =
          if q ∈ acc then acc else acc ++ [q] := rfl
      rw [hstep]
      by_cases hq : q ∈ acc
      · rw [if_pos hq]
        constructor
        · rintro (h | ⟨a, ha⟩)
          · exact Or.inl h
          · exact Or.inr ⟨a, List.mem_cons_of_mem _ ha⟩
        · rintro (h | ⟨a, ha⟩)
          · exact Or.inl h
          · rcases List.mem_cons.mp ha with heq | ha
            · injection heq with h1 h2
              subst h1
              exact Or.inl hq
            · exact Or.inr ⟨a, ha⟩
      · rw [if_neg hq]
        constructor
        · rintro (h | ⟨a, ha⟩)
          · rcases List.mem_append.mp h with h | h
            · exact Or.inl h
            · rw [List.mem_singleton] at h
              subst h
              exact Or.inr ⟨a0, List.mem_cons_self _ _⟩
          · exact Or.inr ⟨a, List.mem_cons_of_mem _ ha⟩
        · rintro (h | ⟨a, ha⟩)
          · exact Or.inl (List.mem_append.mpr (Or.inl h))
          · rcases List.mem_cons.mp ha with heq | ha
            · injection heq with h1 h2
              subst h1
              exact Or.inl (List.mem_append.mpr
                (Or.inr (List.mem_singleton.mpr rfl)))
            · exact Or.inr ⟨a, ha⟩

lemma nodup_foldl_addUniqueQuestion (l : List QAEntry) (acc : List String)
    (h : acc.Nodup) : (l.foldl addUniqueQuestion acc).Nodup := by
  induction l generalizing acc with
  | nil => exact h
  | cons e l ih =>
    rw [List.foldl_cons]
    refine ih _ ?_
    cases e with
    | emptyStr => exact h
    | pair q a =>
      have hstep : addUniqueQuestion acc (QAEntry.pair q a) =
          if q ∈ acc then acc else acc ++ [q] := rfl
      rw [hstep]
      by_cases hq : q ∈ acc
      · rw [if_pos hq]; exact h
      · rw [if_neg hq, List.nodup_append]
        exact ⟨h, List.nodup_singleton q,
          fun x hx hmem => hq ((List.mem_singleton.mp hmem) ▸ hx)⟩

lemma collectQuestions_perm {l1 l2 : List QAEntry} (h : l1.Perm l2) :
    (collectQuestions l1).Perm (collectQuestions l2) := by
  apply List.perm_of_nodup_nodup_toFinset_eq
  · exact nodup_foldl_addUniqueQuestion l1 [] (by simp)
  · exact nodup_foldl_addUniqueQuestion l2 [] (by simp)
  · ext x
    simp only [List.mem_toFinset]
    rw [show collectQuestions l1 = l1.foldl addUniqueQuestion [] from rfl,
      show collectQuestions l2 = l2.foldl addUniqueQuestion [] from rfl,
      mem_foldl_addUniqueQuestion, mem_foldl_addUniqueQuestion]
    simp only [List.not_mem_nil, false_or]
    constructor
    · rintro ⟨a, ha⟩
      exact ⟨a, h.mem_iff.mp ha⟩
    · rintro ⟨a, ha⟩
      exact ⟨a, h.mem_iff.mpr ha⟩

/-- C4 counterexample: with eleven predictions and one reference, moving the
only matching prediction from the last position to the front changes the
evaluator output (the code truncates to `max_questions = 10` entries after
reordering, so the permutation decides which predictions survive). -/
theorem c4_permutation_counterexample :
    (([QAEntry.pair "x0" "y", QAEntry.pair "x1" "y", QAEntry.pair "x2" "y",
        QAEntry.pair "x3" "y", QAEntry.pair "x4" "y", QAEntry.pair "x5" "y",
        QAEntry.pair "x6" "y", QAEntry.pair "x7" "y", QAEntry.pair "x8" "y",
        QAEntry.pair "x9" "y"] ++ [QAEntry.pair "q" "a"]).Perm
      (QAEntry.pair "q" "a" ::
        [QAEntry.pair "x0" "y", QAEntry.pair "x1" "y", QAEntry.pair "x2" "y",
         QAEntry.pair "x3" "y", QAEntry.pair "x4" "y", QAEntry.pair "x5" "y",
         QAEntry.pair "x6" "y", QAEntry.pair "x7" "y", QAEntry.pair "x8" "y",
         QAEntry.pair "x9" "y"])) ∧
    compute_pairwise_evidence_score (fun s t => if s = t then (1 : ℚ) else 0)
        ([QAEntry.pair "x0" "y", QAEntry.pair "x1" "y", QAEntry.pair "x2" "y",
          QAEntry.pair "x3" "y", QAEntry.pair "x4" "y", QAEntry.pair "x5" "y",
          QAEntry.pair "x6" "y", QAEntry.pair "x7" "y", QAEntry.pair "x8" "y",
          QAEntry.pair "x9" "y"] ++ [QAEntry.pair "q" "a"])
        [QAEntry.pair "q" "a"] ≠
      compute_pairwise_evidence_score (fun s t => if s = t then (1 : ℚ) else 0)
        (QAEntry.pair "q" "a" ::
          [QAEntry.pair "x0" "y", QAEntry.pair "x1" "y", QAEntry.pair "x2" "y",
           QAEntry.pair "x3" "y", QAEntry.pair "x4" "y", QAEntry.pair "x5" "y",
           QAEntry.pair "x6" "y", QAEntry.pair "x7" "y", QAEntry.pair "x8" "y",
           QAEntry.pair "x9" "y"])
        [QAEntry.pair "q" "a"] :=
  ⟨List.perm_append_singleton _ _, by with_unfolding_all decide⟩

/-- C4 amended: permutation invariance of the assignment evaluator holds for
any reordering of the reference sequence, with no condition on the
prediction side (gold strings are never truncated, so a reference
permutation only permutes matrix columns); reorderings of the prediction
sequence preserve the score whenever the (filtered, resp. deduplicated)
prediction list does not exceed `max_questions`; beyond that cap the
`[:max_questions]` truncation selects a different subset and the score can
change. -/
theorem c4_amended_permutation_invariance (metric : String → String → ℚ)
    (hnn : ∀ a b, 0 ≤ metric a b) :
    (∀ (preds gold1 gold2 : List QAEntry), gold1.Perm gold2 →
      compute_pairwise_evidence_score metric preds gold1 =
        compute_pairwise_evidence_score metric preds gold2) ∧
    (∀ (preds gold1 gold2 : List QAEntry), gold1.Perm gold2 →
      questions_only_utility metric preds gold1 =
        questions_only_utility metric preds gold2) ∧
    (∀ (preds1 preds2 gold1 gold2 : List QAEntry), preds1.Perm preds2 →
      gold1.Perm gold2 →
      (preds1.filterMap qaString).length ≤ max_questions →
      compute_pairwise_evidence_score metric preds1 gold1 =
        compute_pairwise_evidence_score metric preds2 gold2) ∧
    (∀ (preds1 preds2 gold1 gold2 : List QAEntry), preds1.Perm preds2 →
      gold1.Perm gold2 →
      (collectQuestions preds1).length ≤ max_questions →
      questions_only_utility metric preds1 gold1 =
        questions_only_utility metric preds2 gold2) := by
  refine ⟨?_, ?_, ?_, ?_⟩
  · intro preds gold1 gold2 hg
    unfold compute_pairwise_evidence_score
    exact assignmentScore_perm metric hnn (List.Perm.refl _)
      (hg.filterMap qaString)
  · intro preds gold1 gold2 hg
    unfold questions_only_utility
    exact assignmentScore_perm metric hnn (List.Perm.refl _)
      (collectQuestions_perm hg)
  · intro preds1 preds2 gold1 gold2 hp hg hlen
    unfold compute_pairwise_evidence_score
    have hs : (srcStrings preds1).Perm (srcStrings preds2) := by
      unfold srcStrings
      rw [List.take_of_length_le hlen, List.take_of_length_le
        (by rw [← (hp.filterMap qaString).length_eq]; exact hlen)]
      exact hp.filterMap qaString
    exact assignmentScore_perm metric hnn hs (hg.filterMap qaString)
  · intro preds1 preds2 gold1 gold2 hp hg hlen
    unfold questions_only_utility
    have hcq := collectQuestions_perm hp
    have hs : (srcQuestions preds1).Perm (srcQuestions preds2) := by
      unfold srcQuestions
      rw [List.take_of_length_le hlen, List.take_of_length_le
        (by rw [← hcq.length_eq]; exact hlen)]
      exact hcq
    exact assignmentScore_perm metric hnn hs (collectQuestions_perm hg)

/-- Witness for the amended C4 at concrete inputs: swapping two predictions
below the cap leaves the score unchanged, and swapping the two references
leaves the score unchanged even with eleven predictions (past the cap). -/
theorem c4_amended_permutation_invariance_witness :
    (compute_pairwise_evidence_score (fun _ _ => 1)
        [QAEntry.pair "a" "b", QAEntry.pair "c" "d"] [QAEntry.pair "g" "h"] =
      compute_pairwise_evidence_score (fun _ _ => 1)
        [QAEntry.pair "c" "d", QAEntry.pair "a" "b"]
        [QAEntry.pair "g" "h"]) ∧
    (compute_pairwise_evidence_score (fun _ _ => 1)
        [QAEntry.pair "x0" "y", QAEntry.pair "x1" "y", QAEntry.pair "x2" "y",
         QAEntry.pair "x3" "y", QAEntry.pair "x4" "y", QAEntry.pair "x5" "y",
         QAEntry.pair "x6" "y", QAEntry.pair "x7" "y", QAEntry.pair "x8" "y",
         QAEntry.pair "x9" "y", QAEntry.pair "q" "a"]
        [QAEntry.pair "g" "h", QAEntry.pair "i" "j"] =
      compute_pairwise_evidence_score (fun _ _ => 1)
        [QAEntry.pair "x0" "y", QAEntry.pair "x1" "y", QAEntry.pair "x2" "y",
         QAEntry.pair "x3" "y", QAEntry.pair "x4" "y", QAEntry.pair "x5" "y",
         QAEntry.pair "x6" "y", QAEntry.pair "x7" "y", QAEntry.pair "x8" "y",
         QAEntry.pair "x9" "y", QAEntry.pair "q" "a"]
        [QAEntry.pair "i" "j", QAEntry.pair "g" "h"]) :=
  ⟨(c4_amended_permutation_invariance (fun _ _ => 1)
      (fun _ _ => by norm_num)).2.2.1
    [QAEntry.pair "a" "b", QAEntry.pair "c" "d"]
    [QAEntry.pair "c" "d", QAEntry.pair "a" "b"]
    [QAEntry.pair "g" "h"] [QAEntry.pair "g" "h"]
    (List.Perm.swap _ _ _) (List.Perm.refl _) (by with_unfolding_all decide),
   (c4_amended_permutation_invariance (fun _ _ => 1)
      (fun _ _ => by norm_num)).1
    [QAEntry.pair "x0" "y", QAEntry.pair "x1" "y", QAEntry.pair "x2" "y",
     QAEntry.pair "x3" "y", QAEntry.pair "x4" "y", QAEntry.pair "x5" "y",
     QAEntry.pair "x6" "y", QAEntry.pair "x7" "y", QAEntry.pair "x8" "y",
     QAEntry.pair "x9" "y", QAEntry.pair "q" "a"]
    [QAEntry.pair "g" "h", QAEntry.pair "i" "j"]
    [QAEntry.pair "i" "j", QAEntry.pair "g" "h"] (List.Perm.swap _ _ _)⟩

/-! ## Label-conditioned reporting
(`evaluate_averitec_score` in hungarian_meteor.py and
`extract_ev2r_score` in ev2r_recall.py)

A source row carries the predicted label and the retrieved QA pairs; a
target row the normalized gold label and the gold QA pairs.  The paired
iteration `srcs.iloc[i]` / `tgts.iloc[i]` over `range(len(srcs))` is
modelled by zipping the two lists (the theorems assume equal lengths, as
the evaluation scripts do). -/

structure SrcRow where
  predicted_label : String
  retrieved_qa_pairs : List QAEntry
deriving DecidableEq

structure TgtRow where
  normalized_label : String
  qa_pairs : List QAEntry
deriving DecidableEq

/-- The class constant `averitec_reporting_levels = [0.3]`. -/
def averitec_reporting_levels : List ℚ := [3/10]

/-- The class constant `ev2r_reporting_levels = [0.5]`. -/
def ev2r_reporting_levels : List ℚ := [1/2]

/-- The per-claim indicator list (`hungarian_meteor.py` lines 24-32, same
shape at `ev2r_recall.py` lines 290-306): start from `0.0` per level, and
when the utility exceeds the level, report `1.0` exactly when the predicted
label equals the normalized gold label. -/
def perExampleScores (score : ℚ) (labelOk : Bool) (levels : List ℚ) : List ℚ :=
  levels.map (fun level => if level < score then (if labelOk then 1 else 0) else 0)

/-- The per-claim loop of `evaluate_averitec_score` (lines 19-34): score
each claim with `compute_pairwise_evidence_score`; a claim whose scoring
raises (empty reference string list, hence `ZeroDivisionError`) aborts the
whole evaluation, modelled by `none`. -/
def scoreRows (metric : String → String → ℚ) :
    List (SrcRow × TgtRow) → Option (List (List ℚ))
  | [] => some []
  | (s, t) :: rest =>
    match compute_pairwise_evidence_score metric s.retrieved_qa_pairs t.qa_pairs with
    | none => none
    | some sc =>
      (scoreRows metric rest).map
        (fun l => perExampleScores sc
          (decide (s.predicted_label = t.normalized_label))
          averitec_reporting_levels :: l)

/-- Column-wise arithmetic mean, `np.mean(np.array(scores), axis=0)`. -/
def colMeans (levels : List ℚ) (scores : List (List ℚ)) : List ℚ :=
  (List.range levels.length).map
    (fun j => (scores.map (fun row => row.getD j 0)).sum / (scores.length : ℚ))

/-- Embedding of `AVeriTeCEvaluator.evaluate_averitec_score`
(`hungarian_meteor.py` lines 19-36): per-claim indicator lists plus their
column means. -/
def evaluate_averitec_score (metric : String → String → ℚ)
    (srcs : List SrcRow) (tgts : List TgtRow) :
    Option (List ℚ × List (List ℚ)) :=
  (scoreRows metric (srcs.zip tgts)).map
    (fun scores => (colMeans averitec_reporting_levels scores, scores))

/-- A judged score as stored in `qa_evi_scores`: `None` for a claim whose
judge response could not be scored, otherwise the claim id and the derived
precision/recall. -/
structure Ev2rItem where
  id : ℕ
  precision : ℚ
  «recall» : ℚ
deriving DecidableEq

/-- The inner lookup loop of `extract_ev2r_score` (`ev2r_recall.py` lines
292-313): skip `None` entries, use the first entry whose id equals the
claim index, stop early at an entry with a larger id. -/
def findEv2r : List (Option Ev2rItem) → ℕ → Option Ev2rItem
  | [], _ => none
  | none :: rest, i => findEv2r rest i
  | some e :: rest, i =>
    if e.id = i then some e
    else if i < e.id then none
    else findEv2r rest i

/-- One iteration of the `extract_ev2r_score` loop: indicator list and
recall for claim index `p.1` with rows `p.2`. -/
def ev2rRowOf (qaScores : List (Option Ev2rItem))
    (p : ℕ × (SrcRow × TgtRow)) : List ℚ × ℚ :=
  match findEv2r qaScores p.1 with
  | some e =>
    (perExampleScores e.«recall»
      (decide (p.2.1.predicted_label = p.2.2.normalized_label))
      ev2r_reporting_levels, e.«recall»)
  | none => (ev2r_reporting_levels.map (fun _ => 0), 0)

/-- Embedding of `EV2REvaluator.extract_ev2r_score` (`ev2r_recall.py` lines
285-324): per-claim indicator rows and recalls, a claim with no usable
judged score contributing a zero row and recall `0.0`; returns
`(mean indicators, indicators, mean recall, recalls)`. -/
def extract_ev2r_score (srcs : List SrcRow) (tgts : List TgtRow)
    (qaScores : List (Option Ev2rItem)) :
    List ℚ × List (List ℚ) × ℚ × List ℚ :=
  let rows := ((srcs.zip tgts).enum).map (ev2rRowOf qaScores)
  (colMeans ev2r_reporting_levels (rows.map Prod.fst), rows.map Prod.fst,
    (rows.map Prod.snd).sum / ((rows.map Prod.snd).length : ℚ),
    rows.map Prod.snd)

lemma perExampleScores_getD (u : ℚ) (b : Bool) (levels : List ℚ) (j : ℕ)
    (hj : j < levels.length) :
    (perExampleScores u b levels).getD j 0 =
      if levels.getD j 0 < u ∧ b = true then 1 else 0 := by
  unfold perExampleScores
  rw [getD_map_of_lt _ _ j hj 0 0]
  set x := levels.getD j 0 with hx
  by_cases h1 : x < u
  · cases b with
    | true => simp [h1]
    | false => simp [h1]
  · simp [h1]

lemma perExampleScores_getD_eq_one_iff (u : ℚ) (b : Bool) (levels : List ℚ)
    (j : ℕ) (hj : j < levels.length) :
    ((perExampleScores u b levels).getD j 0 = 1 ↔
      levels.getD j 0 < u ∧ b = true) ∧
    ((perExampleScores u b levels).getD j 0 = 1 ∨
      (perExampleScores u b levels).getD j 0 = 0) := by
  rw [perExampleScores_getD u b levels j hj]
  set x := levels.getD j 0 with hx
  by_cases h : x < u ∧ b = true
  · simp [h]
  · simp [h]

lemma scoreRows_spec (metric : String → String → ℚ) :
    ∀ (pairs : List (SrcRow × TgtRow)) (scores : List (List ℚ)),
      scoreRows metric pairs = some scores →
      scores.length = pairs.length ∧
      ∀ i, i < pairs.length → ∃ u,
        compute_pairwise_evidence_score metric
          (pairs.getD i (⟨"", []⟩, ⟨"", []⟩)).1.retrieved_qa_pairs
          (pairs.getD i (⟨"", []⟩, ⟨"", []⟩)).2.qa_pairs = some u ∧
        scores.getD i [] = perExampleScores u
          (decide ((pairs.getD i (⟨"", []⟩, ⟨"", []⟩)).1.predicted_label =
            (pairs.getD i (⟨"", []⟩, ⟨"", []⟩)).2.normalized_label))
          averitec_reporting_levels := by
  intro pairs
  induction pairs with
  | nil =>
    intro scores h
    simp only [scoreRows] at h
    cases h
    exact ⟨rfl, fun i hi => absurd hi (by simp)⟩
  | cons head rest ih =>
    obtain ⟨s, t⟩ := head
    intro scores h
    simp only [scoreRows] at h
    cases hc : compute_pairwise_evidence_score metric s.retrieved_qa_pairs
        t.qa_pairs with
    | none => rw [hc] at h; cases h
    | some sc =>
      rw [hc] at h
      rcases Option.map_eq_some'.mp h with ⟨l, hrest, rfl⟩
      obtain ⟨hlen, hspec⟩ := ih l hrest
      refine ⟨by simp [hlen], ?_⟩
      intro i hi
      cases i with
      | zero => exact ⟨sc, by simpa using hc, by simp⟩
      | succ i =>
        simp only [List.length_cons] at hi
        have := hspec i (by omega)
        simpa using this

lemma zip_getD (srcs : List SrcRow) (tgts : List TgtRow) (i : ℕ)
    (hi : i < srcs.length) (hlen : srcs.length = tgts.length) :
    (srcs.zip tgts).getD i (⟨"", []⟩, ⟨"", []⟩) =
      (srcs.getD i ⟨"", []⟩, tgts.getD i ⟨"", []⟩) := by
  have hi2 : i < tgts.length := by omega
  have hiz : i < (srcs.zip tgts).length := by
    rw [List.length_zip]; omega
  rw [List.getD_eq_getElem _ _ hiz, List.getD_eq_getElem _ _ hi,
    List.getD_eq_getElem _ _ hi2, List.getElem_zip]

lemma colMeans_getD (levels : List ℚ) (scores : List (List ℚ)) (j : ℕ)
    (hj : j < levels.length) :
    (colMeans levels scores).getD j 0 =
      (scores.map (fun row => row.getD j 0)).sum / (scores.length : ℚ) := by
  unfold colMeans
  rw [getD_map_of_lt _ _ j (by simpa using hj) 0 0]
  rw [show (List.range levels.length).getD j 0 = j from by
    rw [List.getD_eq_getElem _ _ (by simpa using hj)]
    simp]

lemma enum_zip_getD (srcs : List SrcRow) (tgts : List TgtRow) (i : ℕ)
    (hi : i < srcs.length) (hlen : srcs.length = tgts.length) :
    ((srcs.zip tgts).enum).getD i (0, (⟨"", []⟩, ⟨"", []⟩)) =
      (i, (srcs.getD i ⟨"", []⟩, tgts.getD i ⟨"", []⟩)) := by
  have hiz : i < (srcs.zip tgts).length := by rw [List.length_zip]; omega
  have hie : i < ((srcs.zip tgts).enum).length := by
    rw [List.enum_length]; exact hiz
  rw [List.getD_eq_getElem _ _ hie, List.getElem_enum, List.getElem_zip,
    ← List.getD_eq_getElem srcs _ (by omega),
    ← List.getD_eq_getElem tgts _ (by omega)]

lemma extract_ev2r_components (srcs : List SrcRow) (tgts : List TgtRow)
    (qaScores : List (Option Ev2rItem)) (hlen : srcs.length = tgts.length) :
    (extract_ev2r_score srcs tgts qaScores).2.1.length = srcs.length ∧
    (extract_ev2r_score srcs tgts qaScores).2.2.2.length = srcs.length ∧
    ∀ i, i < srcs.length →
      (extract_ev2r_score srcs tgts qaScores).2.1.getD i [] =
        (ev2rRowOf qaScores
          (i, (srcs.getD i ⟨"", []⟩, tgts.getD i ⟨"", []⟩))).1 ∧
      (extract_ev2r_score srcs tgts qaScores).2.2.2.getD i 0 =
        (ev2rRowOf qaScores
          (i, (srcs.getD i ⟨"", []⟩, tgts.getD i ⟨"", []⟩))).2 := by
  have hrl : (((srcs.zip tgts).enum).map (ev2rRowOf qaScores)).length =
      srcs.length := by
    rw [List.length_map, List.enum_length, List.length_zip]
    omega
  refine ⟨?_, ?_, ?_⟩
  · show ((((srcs.zip tgts).enum).map (ev2rRowOf qaScores)).map Prod.fst).length = _
    rw [List.length_map]; exact hrl
  · show ((((srcs.zip tgts).enum).map (ev2rRowOf qaScores)).map Prod.snd).length = _
    rw [List.length_map]; exact hrl
  · intro i hi
    have hiR : i < (((srcs.zip tgts).enum).map (ev2rRowOf qaScores)).length := by
      rw [hrl]; exact hi
    have hie : i < ((srcs.zip tgts).enum).length := by
      rw [List.enum_length, List.length_zip]; omega
    constructor
    · show ((((srcs.zip tgts).enum).map (ev2rRowOf qaScores)).map Prod.fst).getD i [] = _
      rw [getD_map_of_lt Prod.fst _ i hiR [] ((ev2r_reporting_levels.map (fun _ => 0), 0))]
      rw [getD_map_of_lt (ev2rRowOf qaScores) _ i hie
        ((ev2r_reporting_levels.map (fun _ => 0), 0)) (0, (⟨"", []⟩, ⟨"", []⟩))]
      rw [enum_zip_getD srcs tgts i hi hlen]
    · show ((((srcs.zip tgts).enum).map (ev2rRowOf qaScores)).map Prod.snd).getD i 0 = _
      rw [getD_map_of_lt Prod.snd _ i hiR 0 ((ev2r_reporting_levels.map (fun _ => 0), 0))]
      rw [getD_map_of_lt (ev2rRowOf qaScores) _ i hie
        ((ev2r_reporting_levels.map (fun _ => 0), 0)) (0, (⟨"", []⟩, ⟨"", []⟩))]
      rw [enum_zip_getD srcs tgts i hi hlen]

/-- C3 counterexample: in `evaluate_averitec_score` a claim whose scoring
fails (here an empty reference QA list: the reweighting step divides by
zero) aborts the whole evaluation — no corpus metric is produced at all, so
such a claim does not contribute a `0` indicator to a corpus mean. -/
theorem c3_failed_scoring_counterexample :
    evaluate_averitec_score (fun _ _ => 1)
        [⟨"Supported", [QAEntry.pair "q" "a"]⟩] [⟨"Supported", []⟩] = none ∧
    ∀ r, evaluate_averitec_score (fun _ _ => 1)
        [⟨"Supported", [QAEntry.pair "q" "a"]⟩] [⟨"Supported", []⟩] ≠ some r := by
  have h : evaluate_averitec_score (fun _ _ => 1)
      [⟨"Supported", [QAEntry.pair "q" "a"]⟩] [⟨"Supported", []⟩] = none := rfl
  exact ⟨h, fun r hr => by rw [h] at hr; cases hr⟩

/-- C3 amended: the per-claim indicator is `1` exactly when the claim's
utility strictly exceeds the reporting level and the predicted label equals
the normalized reference label (otherwise `0`), and the corpus metrics are
arithmetic means over all claims.  In `extract_ev2r_score` a claim whose
judged scoring failed contributes a zero indicator row and zero recall; in
`evaluate_averitec_score` a scoring failure instead aborts the evaluation
(see the counterexample), so the means there are conditional on every claim
having scored. -/
theorem c3_amended_label_conditioned_metrics
    (metric : String → String → ℚ) (srcs : List SrcRow) (tgts : List TgtRow)
    (qaScores : List (Option Ev2rItem)) (hlen : srcs.length = tgts.length) :
    (∀ means scores,
      evaluate_averitec_score metric srcs tgts = some (means, scores) →
      scores.length = srcs.length ∧
      (∀ j, j < averitec_reporting_levels.length →
        means.getD j 0 =
          (scores.map (fun row => row.getD j 0)).sum / (srcs.length : ℚ)) ∧
      (∀ i, i < srcs.length → ∃ u,
        compute_pairwise_evidence_score metric
          (srcs.getD i ⟨"", []⟩).retrieved_qa_pairs
          (tgts.getD i ⟨"", []⟩).qa_pairs = some u ∧
        ∀ j, j < averitec_reporting_levels.length →
          (((scores.getD i []).getD j 0 = 1) ↔
            (averitec_reporting_levels.getD j 0 < u ∧
              (srcs.getD i ⟨"", []⟩).predicted_label =
                (tgts.getD i ⟨"", []⟩).normalized_label)) ∧
          ((scores.getD i []).getD j 0 = 1 ∨ (scores.getD i []).getD j 0 = 0))) ∧
    ((extract_ev2r_score srcs tgts qaScores).2.1.length = srcs.length ∧
     (∀ j, j < ev2r_reporting_levels.length →
       (extract_ev2r_score srcs tgts qaScores).1.getD j 0 =
         (((extract_ev2r_score srcs tgts qaScores).2.1).map
           (fun row => row.getD j 0)).sum / (srcs.length : ℚ)) ∧
     ((extract_ev2r_score srcs tgts qaScores).2.2.1 =
       ((extract_ev2r_score srcs tgts qaScores).2.2.2).sum / (srcs.length : ℚ)) ∧
     (∀ i, i < srcs.length →
       (findEv2r qaScores i = none →
         (extract_ev2r_score srcs tgts qaScores).2.1.getD i [] =
           ev2r_reporting_levels.map (fun _ => 0) ∧
         (extract_ev2r_score srcs tgts qaScores).2.2.2.getD i 0 = 0) ∧
       (∀ e, findEv2r qaScores i = some e →
         (extract_ev2r_score srcs tgts qaScores).2.2.2.getD i 0 = e.«recall» ∧
         ∀ j, j < ev2r_reporting_levels.length →
           ((((extract_ev2r_score srcs tgts qaScores).2.1.getD i []).getD j 0 = 1) ↔
             (ev2r_reporting_levels.getD j 0 < e.«recall» ∧
               (srcs.getD i ⟨"", []⟩).predicted_label =
                 (tgts.getD i ⟨"", []⟩).normalized_label))))) := by
  have hzl : (srcs.zip tgts).length = srcs.length := by
    rw [List.length_zip]; omega
  constructor
  · intro means scores h
    unfold evaluate_averitec_score at h
    rcases Option.map_eq_some'.mp h with ⟨sc, hsc, heq⟩
    injection heq with h1 h2
    subst h2
    obtain ⟨hslen, hspec⟩ := scoreRows_spec metric _ _ hsc
    have hscore_len : sc.length = srcs.length := hslen.trans hzl
    refine ⟨hscore_len, ?_, ?_⟩
    · intro j hj
      rw [← h1, colMeans_getD _ _ j hj, hscore_len]
    · intro i hi
      obtain ⟨u, hu, hrow⟩ := hspec i (by omega)
      rw [zip_getD srcs tgts i hi hlen] at hu hrow
      refine ⟨u, hu, ?_⟩
      intro j hj
      rw [hrow]
      obtain ⟨hiff, hzo⟩ := perExampleScores_getD_eq_one_iff u
        (decide ((srcs.getD i ⟨"", []⟩).predicted_label =
          (tgts.getD i ⟨"", []⟩).normalized_label)) averitec_reporting_levels j hj
      refine ⟨?_, hzo⟩
      rw [hiff, decide_eq_true_eq]
  · obtain ⟨hl1, hl2, hrows⟩ := extract_ev2r_components srcs tgts qaScores hlen
    refine ⟨hl1, ?_, ?_, ?_⟩
    · intro j hj
      show (colMeans ev2r_reporting_levels
        ((extract_ev2r_score srcs tgts qaScores).2.1)).getD j 0 = _
      rw [colMeans_getD _ _ j hj, hl1]
    · show ((extract_ev2r_score srcs tgts qaScores).2.2.2.sum /
        (((extract_ev2r_score srcs tgts qaScores).2.2.2.length : ℕ) : ℚ)) = _
      rw [hl2]
    · intro i hi
      obtain ⟨hrow1, hrow2⟩ := hrows i hi
      constructor
      · intro hfind
        constructor
        · rw [hrow1]
          simp only [ev2rRowOf, hfind]
        · rw [hrow2]
          simp only [ev2rRowOf, hfind]
      · intro e hfind
        constructor
        · rw [hrow2]
          simp only [ev2rRowOf, hfind]
        · intro j hj
          rw [hrow1]
          simp only [ev2rRowOf, hfind]
          obtain ⟨hiff, _⟩ := perExampleScores_getD_eq_one_iff e.«recall»
            (decide ((srcs.getD i ⟨"", []⟩).predicted_label =
              (tgts.getD i ⟨"", []⟩).normalized_label)) ev2r_reporting_levels j hj
          rw [hiff, decide_eq_true_eq]

/-- Witness for the amended C3 at a concrete input. -/
theorem c3_amended_label_conditioned_metrics_witness :
    (extract_ev2r_score [⟨"Supported", [QAEntry.pair "q" "a"]⟩]
      [⟨"Supported", [QAEntry.pair "q" "a"]⟩]
      [some ⟨0, 1, 1⟩]).2.1.length = 1 :=
  (c3_amended_label_conditioned_metrics (fun _ _ => 1)
    [⟨"Supported", [QAEntry.pair "q" "a"]⟩]
    [⟨"Supported", [QAEntry.pair "q" "a"]⟩]
    [some ⟨0, 1, 1⟩] rfl).2.1

/-! ## String helpers for the evidence retriever
(src/retrieval/expected_evidence_retriever/utils.py)

Python `str.lower()` is modelled with ASCII lowering (Arabic characters and
the block-list terms are unaffected), substring tests (`a in b`) with char
list infix tests, and `str.split()` with a whitespace splitter that drops
empty pieces. -/

def lowerStr (s : String) : String := s.map Char.toLower

/-- Starts-with test on char lists. -/
def prefixTest : List Char → List Char → Bool
  | [], _ => true
  | _ :: _, [] => false
  | a :: as, b :: bs => a = b && prefixTest as bs

/-- Occurs-anywhere test on char lists. -/
def infixTest (needle : List Char) : List Char → Bool
  | [] => decide (needle = [])
  | b :: bs => prefixTest needle (b :: bs) || infixTest needle bs

/-- Python substring test `needle in hay`. -/
def strContains (hay needle : String) : Bool := infixTest needle.data hay.data

/-- One character of the Arabic block `[؀-ۿ]` used by
`is_relevant_result` and the Arabic-date checks. -/
def isArabicChar (c : Char) : Bool := 0x600 ≤ c.toNat && c.toNat ≤ 0x6FF

/-- Python `re.search(r"[؀-ۿ]", s)` as a Boolean. -/
def hasArabicChar (s : String) : Bool := s.data.any isArabicChar

/-- Whitespace splitter, Python `str.split()`: `cur` is the reversed
current word, words are emitted on whitespace, empty pieces dropped. -/
def wordsOfAux : List Char → List Char → List (List Char)
  | cur, [] => if cur = [] then [] else [cur.reverse]
  | cur, c :: cs =>
    if c.isWhitespace then
      if cur = [] then wordsOfAux [] cs else cur.reverse :: wordsOfAux [] cs
    else wordsOfAux (c :: cur) cs

def wordsOf (cs : List Char) : List (List Char) := wordsOfAux [] cs

def splitWords (s : String) : List String := (wordsOf s.data).map List.asString

/-- Python `" ".join(ws)` over char lists. -/
def joinSpace : List (List Char) → List Char
  | [] => []
  | [w] => w
  | w :: ws => w ++ ' ' :: joinSpace ws

/-! ## process_arabic_claim_for_search (utils.py lines 484-538) -/

/-- The fixed stop-word list of `process_arabic_claim_for_search`. -/
def stop_words : List String :=
  ["خبر", "زعم", "ناشروه", "قيام", "حتى", "إشعار", "آخر", "الذي", "التي",
   "الذين", "اللذين", "اللتين", "اللواتي", "هذا", "هذه", "ذلك", "تلك",
   "من", "في", "على", "إلى", "عن", "مع", "بين", "تحت", "فوق", "أمام",
   "خلف", "بعد", "قبل"]

/-- The punctuation removed from each word, `re.sub(r"[،؛:.!؟]", "", word)`. -/
def arabicPunct : List Char := ['،', '؛', ':', '.', '!', '؟']

def cleanWord (w : String) : String :=
  (w.data.filter (fun c => !arabicPunct.contains c)).asString

/-- The introductory boilerplate phrase stripped from the claim start,
`re.sub(r"^خبر زعم ناشروه\s*", "", claim_text)`. -/
def intro_phrase : String := "خبر زعم ناشروه"

def stripIntro (s : String) : String :=
  if intro_phrase.isPrefixOf s then
    ((s.drop intro_phrase.length).data.dropWhile Char.isWhitespace).asString
  else s

/-- The keyword list built by `process_arabic_claim_for_search`: strip the
introductory phrase, split on whitespace, remove punctuation from each
word, keep non-empty words longer than 2 characters that are not stop
words, truncate to `max_keywords = 5`. -/
def keywordsOf (claim : String) : List String :=
  (((splitWords (stripIntro claim)).map cleanWord).filter
    (fun w => !(w = "") && decide (2 < w.length) && !stop_words.contains w)).take 5

/-- Embedding of `process_arabic_claim_for_search` (utils.py lines
484-538): the kept keywords joined with single spaces. -/
def process_arabic_claim_for_search (claim : String) : String :=
  String.mk (joinSpace ((keywordsOf claim).map String.data))

/-! ## is_relevant_result (utils.py lines 443-481) -/

structure SearchResult where
  title : String
  href : String
  body : String
deriving DecidableEq

/-- The fixed block-list `irrelevant_indicators`. -/
def irrelevant_indicators : List String :=
  ["google", "search", "homepage", "privacy", "terms", "settings",
   "advertising", "about google", "carbon neutral"]

/-- Embedding of `is_relevant_result`: reject on any block-list term in the
lowered title/snippet/url, reject without Arabic content in title+snippet,
then require at least 2 of the claim's distinct keywords (`set(...split())`
of the processed claim) to occur as substrings of `title + " " + snippet`. -/
def is_relevant_result (result : SearchResult) (claim_text : String) : Bool :=
  if irrelevant_indicators.any (fun ind =>
      strContains (lowerStr result.title) ind ||
        strContains (lowerStr result.body) ind ||
        strContains (lowerStr result.href) ind) then
    false
  else if !hasArabicChar (lowerStr result.title ++ lowerStr result.body) then
    false
  else
    decide (2 ≤
      ((splitWords (process_arabic_claim_for_search claim_text)).dedup.countP
        (fun k => strContains
          (lowerStr result.title ++ " " ++ lowerStr result.body) k)))

/-! ## The retry loops of the retriever (utils.py lines 218-289, 329-369)

A search call either completes or raises part-way through; an `Attempt`
records the hits handed to the loop body before the outcome (`failed =
true` models an exception after the listed hits; the loop then retries with
backoff).  The accumulated result list lives outside the retry loop in the
source, so it is threaded through as `acc`. -/

structure Attempt where
  yielded : List SearchResult
  failed : Bool

/-- The constant `MAX_RETRIES = 3` of both retrieval loops. -/
def max_retries : ℕ := 3

/-- The `while retries < MAX_RETRIES` loop shared by
`retrieve_potential_evidence` and `retrieve_external_evidence`: process the
hits of the current search call into `acc`; stop on success, retry on
failure, give up when the retry budget is exhausted (returning whatever was
accumulated). -/
def retryLoop {α : Type} (process : SearchResult → Option α) :
    List Attempt → ℕ → List α → List α
  | [], _, acc => acc
  | a :: rest, retries, acc =>
    if retries < max_retries then
      let acc2 := acc ++ a.yielded.filterMap process
      if a.failed then retryLoop process rest (retries + 1) acc2 else acc2
    else acc

/-- An item of the per-claim evidence list built by
`retrieve_potential_evidence`. -/
structure EvidenceOut where
  title : String
  url : String
  snippet : String
deriving DecidableEq

/-- The per-hit body of `retrieve_potential_evidence` (lines 257-267):
resolve the publish date (`find_published_date`, passed here as the
`resolve` oracle) and keep the hit only when a date was found and it is
strictly before the claim date. -/
def processPotentialResult (resolve : String → Option Int) (claimDate : Int)
    (r : SearchResult) : Option EvidenceOut :=
  (resolve r.href).bind (fun d =>
    if d < claimDate then some ⟨r.title, r.href, r.body⟩ else none)

/-- The per-claim retrieval core of `retrieve_potential_evidence` (lines
242-273): the retry loop over search attempts with the date filter. -/
def retrieve_potential_evidence_claim (resolve : String → Option Int)
    (claimDate : Int) (attempts : List Attempt) : List EvidenceOut :=
  retryLoop (processPotentialResult resolve claimDate) attempts 0 []

/-- An item of the list built by `retrieve_external_evidence`. -/
structure ExtEvidence where
  claim : String
  title : String
  url : String
  snippet : String
  date : Option Int
deriving DecidableEq

/-- The per-hit body of `retrieve_external_evidence` (lines 343-361):
resolve the publish date, keep the hit only when `is_relevant_result`
passes, record the date (possibly missing) without comparing it to any
claim date. -/
def processExternalResult (resolve : String → Option Int) (claim_text : String)
    (r : SearchResult) : Option ExtEvidence :=
  let publish_date := resolve r.href
  if is_relevant_result r claim_text then
    some ⟨claim_text, r.title, r.href, r.body, publish_date⟩
  else none

/-- Embedding of `retrieve_external_evidence` (utils.py lines 329-369).
The `claim_date` parameter mirrors the Python signature and, exactly as in
the source, is never read. -/
def retrieve_external_evidence (claim_text : String)
    (_claim_date : Option Int) (resolve : String → Option Int)
    (attempts : List Attempt) : List ExtEvidence :=
  retryLoop (processExternalResult resolve claim_text) attempts 0 []

lemma mem_retryLoop {α : Type} (process : SearchResult → Option α) :
    ∀ (attempts : List Attempt) (retries : ℕ) (acc : List α) (x : α),
      x ∈ retryLoop process attempts retries acc →
      x ∈ acc ∨ ∃ a ∈ attempts, ∃ r ∈ a.yielded, process r = some x := by
  intro attempts
  induction attempts with
  | nil =>
    intro retries acc x h
    exact Or.inl h
  | cons a rest ih =>
    intro retries acc x h
    rw [retryLoop] at h
    by_cases hr : retries < max_retries
    · rw [if_pos hr] at h
      have hacc2 : x ∈ acc ++ a.yielded.filterMap process →
          x ∈ acc ∨ ∃ a2 ∈ a :: rest, ∃ r ∈ a2.yielded, process r = some x := by
        intro hx
        rcases List.mem_append.mp hx with hx | hx
        · exact Or.inl hx
        · rcases List.mem_filterMap.mp hx with ⟨r, hr1, hr2⟩
          exact Or.inr ⟨a, List.mem_cons_self _ _, r, hr1, hr2⟩
      by_cases hf : a.failed
      · rw [if_pos hf] at h
        rcases ih (retries + 1) _ x h with hx | ⟨a2, ha2, r, hr1, hr2⟩
        · exact hacc2 hx
        · exact Or.inr ⟨a2, List.mem_cons_of_mem _ ha2, r, hr1, hr2⟩
      · rw [if_neg hf] at h
        exact hacc2 h
    · rw [if_neg hr] at h
      exact Or.inl h

lemma retryLoop_mono {α : Type} (process : SearchResult → Option α) :
    ∀ (attempts : List Attempt) (retries : ℕ) (acc : List α) (x : α),
      x ∈ acc → x ∈ retryLoop process attempts retries acc := by
  intro attempts
  induction attempts with
  | nil => intro retries acc x h; exact h
  | cons a rest ih =>
    intro retries acc x h
    rw [retryLoop]
    by_cases hr : retries < max_retries
    · rw [if_pos hr]
      have h2 : x ∈ acc ++ a.yielded.filterMap process :=
        List.mem_append.mpr (Or.inl h)
      by_cases hf : a.failed
      · rw [if_pos hf]
        exact ih _ _ x h2
      · rw [if_neg hf]
        exact h2
    · rw [if_neg hr]
      exact h

set_option maxRecDepth 40000 in
/-- C2 counterexample: `retrieve_external_evidence` ignores its
`claim_date` parameter entirely.  With a resolver that cannot date the hit
at all, the (relevant) hit is still returned, carrying `date = none`. -/
theorem c2_temporal_filter_counterexample :
    retrieve_external_evidence "الرئيس زار مدينة القاهرة يوم أمس" (some 50)
        (fun _ => none)
        [⟨[⟨"الرئيس زار القاهرة", "http://example.com/a",
            "زار الرئيس مدينة القاهرة"⟩], false⟩] =
      [⟨"الرئيس زار مدينة القاهرة يوم أمس", "الرئيس زار القاهرة",
        "http://example.com/a", "زار الرئيس مدينة القاهرة", none⟩] ∧
    ∃ item ∈ retrieve_external_evidence "الرئيس زار مدينة القاهرة يوم أمس"
        (some 50) (fun _ => none)
        [⟨[⟨"الرئيس زار القاهرة", "http://example.com/a",
            "زار الرئيس مدينة القاهرة"⟩], false⟩], item.date = none := by
  have h : retrieve_external_evidence "الرئيس زار مدينة القاهرة يوم أمس"
      (some 50) (fun _ => none)
      [⟨[⟨"الرئيس زار القاهرة", "http://example.com/a",
          "زار الرئيس مدينة القاهرة"⟩], false⟩] =
      [⟨"الرئيس زار مدينة القاهرة يوم أمس", "الرئيس زار القاهرة",
        "http://example.com/a", "زار الرئيس مدينة القاهرة", none⟩] := by
    with_unfolding_all decide
  refine ⟨h, ⟨⟨"الرئيس زار مدينة القاهرة يوم أمس", "الرئيس زار القاهرة",
    "http://example.com/a", "زار الرئيس مدينة القاهرة", none⟩, ?_, rfl⟩⟩
  rw [h]
  exact List.mem_singleton.mpr rfl

/-- C2 amended: the strict temporal invariant holds for
`retrieve_potential_evidence` — every returned item has a resolved publish
date strictly before the claim date, and hits with no resolved date or a
later date never appear.  `retrieve_external_evidence` does not enforce it:
its output is exactly the relevance-filtered hits, each carrying whatever
(possibly missing, possibly late) date the resolver produced. -/
theorem c2_amended_temporal_invariant (resolve : String → Option Int)
    (claimDate : Int) (claim_text : String) (claimDateOpt : Option Int)
    (attempts : List Attempt) :
    (∀ item ∈ retrieve_potential_evidence_claim resolve claimDate attempts,
      ∃ d, resolve item.url = some d ∧ d < claimDate) ∧
    (∀ item ∈ retrieve_external_evidence claim_text claimDateOpt resolve attempts,
      is_relevant_result ⟨item.title, item.url, item.snippet⟩ claim_text = true ∧
        item.date = resolve item.url ∧ item.claim = claim_text) := by
  constructor
  · intro item hitem
    rcases mem_retryLoop _ _ _ _ _ hitem with hacc | ⟨a, _, r, _, hp⟩
    · cases hacc
    · unfold processPotentialResult at hp
      rcases Option.bind_eq_some.mp hp with ⟨d, hres, hif⟩
      by_cases hd : d < claimDate
      · rw [if_pos hd] at hif
        injection hif with hif
        subst hif
        exact ⟨d, hres, hd⟩
      · rw [if_neg hd] at hif
        cases hif
  · intro item hitem
    rcases mem_retryLoop _ _ _ _ _ hitem with hacc | ⟨a, _, r, _, hp⟩
    · cases hacc
    · unfold processExternalResult at hp
      by_cases hrel : is_relevant_result r claim_text
      · rw [if_pos hrel] at hp
        injection hp with hp
        subst hp
        exact ⟨hrel, rfl, rfl⟩
      · rw [if_neg hrel] at hp
        cases hp

set_option maxRecDepth 40000 in
/-- Witness for the amended C2 at a concrete input: one dated hit before
the claim date is retained and its date respects the invariant. -/
theorem c2_amended_temporal_invariant_witness :
    ∃ d, (fun _ : String => some (10 : Int)) "http://example.com/a" = some d ∧
      d < 50 :=
  (c2_amended_temporal_invariant (fun _ => some 10) 50 "x" none
    [⟨[⟨"t", "http://example.com/a", "s"⟩], false⟩]).1
    ⟨"t", "http://example.com/a", "s"⟩ (by with_unfolding_all decide)

set_option maxRecDepth 40000 in
/-- C10: the retry loop of `retrieve_external_evidence` is not atomic — the
result list is never reset between attempts, so items appended by a failed
attempt survive into the final result, and a hit yielded again by a later
successful attempt appears twice. -/
theorem c10_retry_accumulation_not_atomic :
    (∀ (α : Type) (process : SearchResult → Option α) (a : Attempt)
        (rest : List Attempt) (retries : ℕ) (acc : List α) (x : α),
        retries < max_retries → a.failed = true →
        x ∈ a.yielded.filterMap process →
        x ∈ retryLoop process (a :: rest) retries acc) ∧
    retrieve_external_evidence "الرئيس زار مدينة القاهرة يوم أمس" none
        (fun _ => none)
        [⟨[⟨"الرئيس زار القاهرة", "http://example.com/a",
            "زار الرئيس مدينة القاهرة"⟩], true⟩,
         ⟨[⟨"الرئيس زار القاهرة", "http://example.com/a",
            "زار الرئيس مدينة القاهرة"⟩], false⟩] =
      [⟨"الرئيس زار مدينة القاهرة يوم أمس", "الرئيس زار القاهرة",
        "http://example.com/a", "زار الرئيس مدينة القاهرة", none⟩,
       ⟨"الرئيس زار مدينة القاهرة يوم أمس", "الرئيس زار القاهرة",
        "http://example.com/a", "زار الرئيس مدينة القاهرة", none⟩] := by
  constructor
  · intro α process a rest retries acc x hr hf hx
    rw [retryLoop, if_pos hr, if_pos hf]
    exact retryLoop_mono process _ _ _ x (List.mem_append.mpr (Or.inr hx))
  · with_unfolding_all decide

set_option maxRecDepth 40000 in
/-- Witness for C10: a concrete item from a failed first attempt is still
in the loop output. -/
theorem c10_retry_accumulation_not_atomic_witness :
    (⟨"الرئيس زار مدينة القاهرة يوم أمس", "الرئيس زار القاهرة",
      "http://example.com/a", "زار الرئيس مدينة القاهرة", none⟩ : ExtEvidence) ∈
      retryLoop (processExternalResult (fun _ => none)
          "الرئيس زار مدينة القاهرة يوم أمس")
        [⟨[⟨"الرئيس زار القاهرة", "http://example.com/a",
            "زار الرئيس مدينة القاهرة"⟩], true⟩] 0 [] :=
  (c10_retry_accumulation_not_atomic).1 ExtEvidence
    (processExternalResult (fun _ => none) "الرئيس زار مدينة القاهرة يوم أمس")
    ⟨[⟨"الرئيس زار القاهرة", "http://example.com/a",
        "زار الرئيس مدينة القاهرة"⟩], true⟩ [] 0 []
    ⟨"الرئيس زار مدينة القاهرة يوم أمس", "الرئيس زار القاهرة",
      "http://example.com/a", "زار الرئيس مدينة القاهرة", none⟩
    (by decide) rfl (by with_unfolding_all decide)

/-! ## Round trip between keyword joining and whitespace splitting -/

lemma data_asString (l : List Char) : (List.asString l).data = l := rfl

lemma asString_data (s : String) : s.data.asString = s := by
  cases s
  rfl

lemma wordsOfAux_nonws (w : List Char)
    (hw : ∀ c ∈ w, c.isWhitespace = false) :
    ∀ (acc r : List Char),
      wordsOfAux acc (w ++ r) = wordsOfAux (w.reverse ++ acc) r := by
  induction w with
  | nil => intro acc r; rfl
  | cons c w ih =>
    intro acc r
    have hc : c.isWhitespace = false := hw c (List.mem_cons_self _ _)
    show wordsOfAux acc (c :: (w ++ r)) = _
    rw [wordsOfAux, hc]
    simp only [Bool.false_eq_true, if_false]
    rw [ih (fun d hd => hw d (List.mem_cons_of_mem _ hd)) (c :: acc) r]
    congr 1
    simp [List.append_assoc]

lemma wordsOf_joinSpace (ws : List (List Char))
    (h : ∀ w ∈ ws, w ≠ [] ∧ ∀ c ∈ w, c.isWhitespace = false) :
    wordsOf (joinSpace ws) = ws := by
  induction ws with
  | nil => rfl
  | cons w ws ih =>
    obtain ⟨hne, hnw⟩ := h w (List.mem_cons_self _ _)
    have hrev : w.reverse ≠ [] := by simpa using hne
    cases ws with
    | nil =>
      show wordsOf w = [w]
      unfold wordsOf
      calc wordsOfAux [] w = wordsOfAux [] (w ++ []) := by rw [List.append_nil]
        _ = wordsOfAux (w.reverse ++ []) [] := wordsOfAux_nonws w hnw [] []
        _ = [w] := by
            rw [List.append_nil, wordsOfAux, if_neg hrev, List.reverse_reverse]
    | cons w2 ws2 =>
      show wordsOf (w ++ ' ' :: joinSpace (w2 :: ws2)) = w :: w2 :: ws2
      unfold wordsOf
      rw [wordsOfAux_nonws w hnw [] (' ' :: joinSpace (w2 :: ws2)),
        List.append_nil, wordsOfAux]
      rw [if_pos (show (' ' : Char).isWhitespace = true from rfl), if_neg hrev,
        List.reverse_reverse]
      have ih2 := ih (fun u hu => h u (List.mem_cons_of_mem _ hu))
      unfold wordsOf at ih2
      rw [ih2]

lemma mem_wordsOfAux_wf :
    ∀ (cs acc : List Char), (∀ c ∈ acc, c.isWhitespace = false) →
      ∀ w ∈ wordsOfAux acc cs, w ≠ [] ∧ ∀ c ∈ w, c.isWhitespace = false := by
  intro cs
  induction cs with
  | nil =>
    intro acc hacc w hw
    by_cases h : acc = []
    · subst h
      rw [wordsOfAux, if_pos rfl] at hw
      cases hw
    · rw [wordsOfAux, if_neg h] at hw
      rw [List.mem_singleton] at hw
      subst hw
      exact ⟨by simpa using h, fun c hc => hacc c (by simpa using hc)⟩
  | cons c cs ih =>
    intro acc hacc w hw
    rw [wordsOfAux] at hw
    by_cases hws : c.isWhitespace
    · rw [if_pos hws] at hw
      by_cases h : acc = []
      · rw [if_pos h] at hw
        exact ih [] (by simp) w hw
      · rw [if_neg h] at hw
        rcases List.mem_cons.mp hw with rfl | hw
        · exact ⟨by simpa using h, fun d hd => hacc d (by simpa using hd)⟩
        · exact ih [] (by simp) w hw
    · rw [if_neg hws] at hw
      rw [Bool.not_eq_true] at hws
      refine ih (c :: acc) ?_ w hw
      intro d hd
      rcases List.mem_cons.mp hd with rfl | hd
      · exact hws
      · exact hacc d hd

lemma keywordsOf_wf (claim : String) :
    ∀ w ∈ (keywordsOf claim).map String.data,
      w ≠ [] ∧ ∀ c ∈ w, c.isWhitespace = false := by
  intro w hw
  rcases List.mem_map.mp hw with ⟨s, hs, rfl⟩
  unfold keywordsOf at hs
  have hs2 := List.mem_of_mem_take hs
  rcases List.mem_filter.mp hs2 with ⟨hmem, hcond⟩
  have hne : s ≠ "" := by
    intro h
    subst h
    simp at hcond
  refine ⟨?_, ?_⟩
  · intro h
    apply hne
    cases s with
    | mk d =>
      simp only [String.data] at h
      rw [h]
  · rcases List.mem_map.mp hmem with ⟨w0, hw0, rfl⟩
    intro c hc
    rw [show (cleanWord w0).data =
        w0.data.filter (fun c => !arabicPunct.contains c) from rfl] at hc
    have hc2 : c ∈ w0.data := List.mem_of_mem_filter hc
    rcases List.mem_map.mp hw0 with ⟨wl, hwl, rfl⟩
    rw [data_asString] at hc2
    exact (mem_wordsOfAux_wf _ [] (by simp) wl hwl).2 c hc2

lemma splitWords_process (claim : String) :
    splitWords (process_arabic_claim_for_search claim) = keywordsOf claim := by
  unfold process_arabic_claim_for_search splitWords
  rw [show (String.mk (joinSpace ((keywordsOf claim).map String.data))).data =
    joinSpace ((keywordsOf claim).map String.data) from rfl]
  rw [wordsOf_joinSpace _ (keywordsOf_wf claim), List.map_map]
  have : (List.asString ∘ String.data) = id := by
    funext s
    exact asString_data s
  rw [this, List.map_id]

/-- C9: the relevance filter accepts a hit exactly when no block-list term
occurs in the lowered title, snippet or URL, the concatenated title+snippet
contains an Arabic-script character, and at least two of the claim's
distinct extracted keywords (boilerplate phrase stripped, punctuation
removed, stop words and words of length at most 2 dropped, at most five
kept) occur in the combined `title + " " + snippet` text. -/
theorem c9_relevance_filter_characterization (result : SearchResult)
    (claim_text : String) :
    is_relevant_result result claim_text = true ↔
      ((∀ ind ∈ irrelevant_indicators,
          strContains (lowerStr result.title) ind = false ∧
          strContains (lowerStr result.body) ind = false ∧
          strContains (lowerStr result.href) ind = false) ∧
        hasArabicChar (lowerStr result.title ++ lowerStr result.body) = true ∧
        2 ≤ (keywordsOf claim_text).dedup.countP
          (fun k => strContains
            (lowerStr result.title ++ " " ++ lowerStr result.body) k)) := by
  unfold is_relevant_result
  rw [splitWords_process]
  by_cases hblock : irrelevant_indicators.any (fun ind =>
      strContains (lowerStr result.title) ind ||
        strContains (lowerStr result.body) ind ||
        strContains (lowerStr result.href) ind)
  · rw [if_pos hblock]
    constructor
    · intro h
      cases h
    · rintro ⟨hno, _, _⟩
      exfalso
      rcases List.any_eq_true.mp hblock with ⟨ind, hind, hor⟩
      obtain ⟨h1, h2, h3⟩ := hno ind hind
      rw [h1, h2, h3] at hor
      simp at hor
  · rw [if_neg hblock]
    have hnone : ∀ ind ∈ irrelevant_indicators,
        strContains (lowerStr result.title) ind = false ∧
        strContains (lowerStr result.body) ind = false ∧
        strContains (lowerStr result.href) ind = false := by
      intro ind hind
      have hb : (strContains (lowerStr result.title) ind ||
          strContains (lowerStr result.body) ind ||
          strContains (lowerStr result.href) ind) = false := by
        by_contra hx
        exact hblock (List.any_eq_true.mpr
          ⟨ind, hind, eq_true_of_ne_false hx⟩)
      rcases Bool.or_eq_false_iff.mp hb with ⟨hb1, hb3⟩
      rcases Bool.or_eq_false_iff.mp hb1 with ⟨hb1, hb2⟩
      exact ⟨hb1, hb2, hb3⟩
    by_cases harabic :
        hasArabicChar (lowerStr result.title ++ lowerStr result.body) = true
    · rw [if_neg (by rw [harabic]; simp)]
      rw [decide_eq_true_eq]
      constructor
      · intro hcount
        exact ⟨hnone, harabic, hcount⟩
      · rintro ⟨_, _, hcount⟩
        exact hcount
    · have hfalse : hasArabicChar (lowerStr result.title ++ lowerStr result.body) =
          false := by
        revert harabic
        cases hasArabicChar (lowerStr result.title ++ lowerStr result.body) <;> simp
      rw [if_pos (by rw [hfalse]; rfl)]
      constructor
      · intro h
        cases h
      · rintro ⟨_, ha, _⟩
        exact absurd ha harabic

/-! ## Date resolution chain
(`extract_published_date` and `find_published_date`, utils.py lines 75-179)

External collaborators are parameters: `dateParse` models
`dateutil.parser.parse` (with `fuzzy=True`; `none` where Python raises),
`parseArabic` models `parse_arabic_date` (which returns `None` on failure,
turning into an exception at the `tzinfo` access, hence also `none`),
`fetch` is `none` when `scrape_html` raises, each JSON-LD script is
represented by the `datePublished` string it yields (`none` when
`json.loads` fails or no usable `datePublished` exists), and `htmldateRaw`
is the raw string from `htmldate.find_date` (`none` covers both a miss and
an exception).  Timezone normalization is absorbed into the integer
timestamps. -/

/-- Try to match the date regex (4 digits, a dash or slash, 2 digits, a
dash or slash, 2 digits) at the head of the char
list; on success return the groups joined with `-`
(`date_str = "-".join(date_match.groups())`). -/
def matchDateAt : List Char → Option String
  | y1 :: y2 :: y3 :: y4 :: s1 :: m1 :: m2 :: s2 :: d1 :: d2 :: _ =>
    if y1.isDigit && y2.isDigit && y3.isDigit && y4.isDigit &&
        (s1 = '-' || s1 = '/') && m1.isDigit && m2.isDigit &&
        (s2 = '-' || s2 = '/') && d1.isDigit && d2.isDigit then
      some (String.mk [y1, y2, y3, y4, '-', m1, m2, '-', d1, d2])
    else none
  | _ => none

/-- Python `re.search`: first match anywhere in the URL, scanning left to
right. -/
def findUrlDate : List Char → Option String
  | [] => none
  | c :: cs =>
    match matchDateAt (c :: cs) with
    | some s => some s
    | none => findUrlDate cs

/-- The scraped document as the date extractor sees it: the
`datePublished` candidate of each `ld+json` script, and the content lookup
for `<meta name=...>` / `<meta property=...>` tags. -/
structure ScrapedDoc where
  scripts : List (Option String)
  metaName : String → Option String
  metaProp : String → Option String

/-- The ordered `meta_names` candidates (utils.py line 158). -/
def meta_names : List String :=
  ["pubdate", "publish_date", "date", "dc.date", "dc.date.issued"]

/-- The ordered `meta_props` candidates (utils.py line 159). -/
def meta_props : List String :=
  ["article:published_time", "og:published_time", "og:updated_time"]

/-- Python `tag and tag.get("content")`: a present tag with empty content
is skipped. -/
def metaContent (lookup : String → Option String) (key : String) :
    Option String :=
  match lookup key with
  | some s => if s = "" then none else some s
  | none => none

/-- The first meta candidate with non-empty content, names before
properties (utils.py lines 160-174). -/
def firstMeta (doc : ScrapedDoc) : Option String :=
  (meta_names.filterMap (metaContent doc.metaName) ++
    meta_props.filterMap (metaContent doc.metaProp)).head?

/-- Parsing one `datePublished` candidate: Arabic-script strings go through
the Arabic normalizer, the rest through the generic parser (utils.py lines
122-128). -/
def parseCandidate (dateParse parseArabic : String → Option Int)
    (s : String) : Option Int :=
  if hasArabicChar s then parseArabic s else dateParse s

/-- The JSON-LD script loop (utils.py lines 115-155): scripts are tried in
order, and any per-script failure — unparseable JSON, no `datePublished`,
or a parse exception on its value — falls through to the next script. -/
def jsonLdStage (dateParse parseArabic : String → Option Int) :
    List (Option String) → Option Int
  | [] => none
  | none :: rest => jsonLdStage dateParse parseArabic rest
  | some s :: rest =>
    match parseCandidate dateParse parseArabic s with
    | some d => some d
    | none => jsonLdStage dateParse parseArabic rest

/-- Stage 1 as a stage function: URL-embedded date; a parse failure of the
matched string yields `none` (the code prints and falls through). -/
def urlStage (dateParse : String → Option Int) (url : String) : Option Int :=
  (findUrlDate url.data).bind dateParse

/-- Stage 3 as a stage function: the first meta candidate with content is
parsed; a parse exception there aborts `extract_published_date` (the
remaining candidates are not tried), which the `bind` reproduces. -/
def metaStage (dateParse : String → Option Int) (doc : ScrapedDoc) :
    Option Int :=
  (firstMeta doc).bind dateParse

/-- The document-dependent part of `extract_published_date` (lines
112-174): scrape, then JSON-LD, then meta tags; a scrape exception
(`fetch = none`) skips both. -/
def docStages (dateParse parseArabic : String → Option Int)
    (fetch : Option ScrapedDoc) : Option Int :=
  match fetch with
  | none => none
  | some doc =>
    match jsonLdStage dateParse parseArabic doc.scripts with
    | some d => some d
    | none => metaStage dateParse doc

/-- Embedding of `extract_published_date` (utils.py lines 95-179),
mirroring its control flow: URL date first (parse failure falls through to
the document), then the document stages; the outer `except` returning
`None` is the `none` propagation. -/
def extract_published_date (dateParse parseArabic : String → Option Int)
    (url : String) (fetch : Option ScrapedDoc) : Option Int :=
  match findUrlDate url.data with
  | some dstr =>
    match dateParse dstr with
    | some d => some d
    | none => docStages dateParse parseArabic fetch
  | none => docStages dateParse parseArabic fetch

/-- Stage 4 as a stage function: `htmldate.find_date` output parsed, any
exception swallowed to `none` (utils.py lines 80-92). -/
def htmldateStage (dateParse : String → Option Int)
    (htmldateRaw : Option String) : Option Int :=
  htmldateRaw.bind dateParse

/-- Embedding of `find_published_date` (utils.py lines 75-92):
`extract_published_date`, then the htmldate fallback. -/
def find_published_date (dateParse parseArabic : String → Option Int)
    (url : String) (fetch : Option ScrapedDoc)
    (htmldateRaw : Option String) : Option Int :=
  match extract_published_date dateParse parseArabic url fetch with
  | some d => some d
  | none => htmldateStage dateParse htmldateRaw

/-- Stage 2 over the optional document. -/
def docJsonStage (dateParse parseArabic : String → Option Int)
    (fetch : Option ScrapedDoc) : Option Int :=
  fetch.bind (fun doc => jsonLdStage dateParse parseArabic doc.scripts)

/-- Stage 3 over the optional document. -/
def docMetaStage (dateParse : String → Option Int)
    (fetch : Option ScrapedDoc) : Option Int :=
  fetch.bind (metaStage dateParse)

/-- Short-circuiting first-success combinator over an ordered stage list. -/
def firstSuccess : List (Option Int) → Option Int
  | [] => none
  | some d :: _ => some d
  | none :: rest => firstSuccess rest

lemma firstSuccess_eq_none (l : List (Option Int)) :
    firstSuccess l = none ↔ ∀ o ∈ l, o = none := by
  induction l with
  | nil => simp [firstSuccess]
  | cons o rest ih =>
    cases o with
    | some d => simp [firstSuccess]
    | none => simp [firstSuccess, ih]

/-- C5: when the URL contains a parseable date of the shape YYYY-MM-DD or
YYYY/MM/DD (separators independent), the
resolver returns exactly that URL-embedded date, and the result does not
depend on the fetched document (JSON-LD, meta tags) or on the heuristic
full-text extraction — even when they carry a conflicting value. -/
theorem c5_url_date_wins (dateParse parseArabic : String → Option Int)
    (url : String) (dstr : String) (d : Int)
    (hmatch : findUrlDate url.data = some dstr)
    (hparse : dateParse dstr = some d) :
    (∀ (fetch : Option ScrapedDoc) (htmldateRaw : Option String),
      find_published_date dateParse parseArabic url fetch htmldateRaw =
        some d) ∧
    (∀ (fetch1 fetch2 : Option ScrapedDoc) (h1 h2 : Option String),
      find_published_date dateParse parseArabic url fetch1 h1 =
        find_published_date dateParse parseArabic url fetch2 h2) := by
  have hall : ∀ (fetch : Option ScrapedDoc) (htmldateRaw : Option String),
      find_published_date dateParse parseArabic url fetch htmldateRaw =
        some d := by
    intro fetch htmldateRaw
    have he : extract_published_date dateParse parseArabic url fetch = some d := by
      show (match findUrlDate url.data with
          | some dstr =>
            match dateParse dstr with
            | some d => some d
            | none => docStages dateParse parseArabic fetch
          | none => docStages dateParse parseArabic fetch) = some d
      rw [hmatch]
      show (match dateParse dstr with
          | some d => some d
          | none => docStages dateParse parseArabic fetch) = some d
      rw [hparse]
    show (match extract_published_date dateParse parseArabic url fetch with
        | some d => some d
        | none => htmldateStage dateParse htmldateRaw) = some d
    rw [he]
  exact ⟨hall, fun f1 f2 h1 h2 => (hall f1 h1).trans (hall f2 h2).symm⟩

/-- Witness for C5: a URL carrying `2024/03/05` wins over a document whose
JSON-LD carries a conflicting parseable date. -/
theorem c5_url_date_wins_witness :
    find_published_date
        (fun s => if s = "2024-03-05" then some 7 else some 99)
        (fun _ => none) "https://ex.com/2024/03/05/x"
        (some ⟨[some "1999-01-01"], fun _ => none, fun _ => none⟩)
        (some "1999-01-01") = some 7 :=
  (c5_url_date_wins (fun s => if s = "2024-03-05" then some 7 else some 99)
    (fun _ => none) "https://ex.com/2024/03/05/x" "2024-03-05" 7
    (by with_unfolding_all decide) (by with_unfolding_all decide)).1
    (some ⟨[some "1999-01-01"], fun _ => none, fun _ => none⟩)
    (some "1999-01-01")

/-- C6: the resolver is exactly the short-circuiting first-success chain of
its four stages — any stage-internal parse exception is a `none` for that
stage and resolution advances —, it returns `none` exactly when every stage
produced nothing, and inside the JSON-LD stage a failing script falls
through to the next script. -/
theorem c6_fallback_chain_exhaustive (dateParse parseArabic : String → Option Int)
    (url : String) (fetch : Option ScrapedDoc) (htmldateRaw : Option String) :
    (find_published_date dateParse parseArabic url fetch htmldateRaw =
      firstSuccess [urlStage dateParse url,
        docJsonStage dateParse parseArabic fetch,
        docMetaStage dateParse fetch,
        htmldateStage dateParse htmldateRaw]) ∧
    (find_published_date dateParse parseArabic url fetch htmldateRaw = none ↔
      urlStage dateParse url = none ∧
      docJsonStage dateParse parseArabic fetch = none ∧
      docMetaStage dateParse fetch = none ∧
      htmldateStage dateParse htmldateRaw = none) ∧
    (∀ (s : String) (rest : List (Option String)),
      parseCandidate dateParse parseArabic s = none →
      jsonLdStage dateParse parseArabic (some s :: rest) =
        jsonLdStage dateParse parseArabic rest) := by
  have hchain : find_published_date dateParse parseArabic url fetch htmldateRaw =
      firstSuccess [urlStage dateParse url,
        docJsonStage dateParse parseArabic fetch,
        docMetaStage dateParse fetch,
        htmldateStage dateParse htmldateRaw] := by
    have hS : (match docStages dateParse parseArabic fetch with
        | some d => some d
        | none => htmldateStage dateParse htmldateRaw) =
        firstSuccess [docJsonStage dateParse parseArabic fetch,
          docMetaStage dateParse fetch,
          htmldateStage dateParse htmldateRaw] := by
      cases fetch with
      | none =>
        show (match (none : Option Int) with
            | some d => some d
            | none => htmldateStage dateParse htmldateRaw) =
          firstSuccess [none, none, htmldateStage dateParse htmldateRaw]
        cases hh : htmldateStage dateParse htmldateRaw with
        | some d => rfl
        | none => rfl
      | some doc =>
        show (match (match jsonLdStage dateParse parseArabic doc.scripts with
              | some d => some d
              | none => metaStage dateParse doc) with
            | some d => some d
            | none => htmldateStage dateParse htmldateRaw) =
          firstSuccess [jsonLdStage dateParse parseArabic doc.scripts,
            metaStage dateParse doc, htmldateStage dateParse htmldateRaw]
        cases hj : jsonLdStage dateParse parseArabic doc.scripts with
        | some d => rfl
        | none =>
          cases hm : metaStage dateParse doc with
          | some d => rfl
          | none =>
            cases hh : htmldateStage dateParse htmldateRaw with
            | some d => rfl
            | none => rfl
    have he : extract_published_date dateParse parseArabic url fetch =
        match (findUrlDate url.data).bind dateParse with
        | some d => some d
        | none => docStages dateParse parseArabic fetch := by
      show (match findUrlDate url.data with
          | some dstr =>
            match dateParse dstr with
            | some d => some d
            | none => docStages dateParse parseArabic fetch
          | none => docStages dateParse parseArabic fetch) = _
      cases hurl : findUrlDate url.data with
      | none => rfl
      | some dstr =>
        show (match dateParse dstr with
            | some d => some d
            | none => docStages dateParse parseArabic fetch) = _
        rw [Option.some_bind]
    show (match extract_published_date dateParse parseArabic url fetch with
        | some d => some d
        | none => htmldateStage dateParse htmldateRaw) = _
    rw [he]
    show (match (match urlStage dateParse url with
          | some d => some d
          | none => docStages dateParse parseArabic fetch) with
        | some d => some d
        | none => htmldateStage dateParse htmldateRaw) = _
    cases hu : urlStage dateParse url with
    | some d => rfl
    | none =>
      show (match docStages dateParse parseArabic fetch with
          | some d => some d
          | none => htmldateStage dateParse htmldateRaw) =
        firstSuccess [docJsonStage dateParse parseArabic fetch,
          docMetaStage dateParse fetch, htmldateStage dateParse htmldateRaw]
      exact hS
  refine ⟨hchain, ?_, ?_⟩
  · rw [hchain, firstSuccess_eq_none]
    constructor
    · intro h
      exact ⟨h _ (by simp), h _ (by simp), h _ (by simp), h _ (by simp)⟩
    · rintro ⟨h1, h2, h3, h4⟩ o ho
      simp only [List.mem_cons, List.not_mem_nil, or_false] at ho
      rcases ho with rfl | rfl | rfl | rfl
      · exact h1
      · exact h2
      · exact h3
      · exact h4
  · intro s rest hfail
    rw [jsonLdStage, hfail]

/-- Witness for C6 at a concrete input: a script whose candidate fails to
parse is skipped in favour of the rest of the script list. -/
theorem c6_fallback_chain_exhaustive_witness :
    jsonLdStage (fun _ => none) (fun _ => none) [some "bad"] =
      jsonLdStage (fun _ => none) (fun _ => none) [] :=
  (c6_fallback_chain_exhaustive (fun _ => none) (fun _ => none) "u" none
    none).2.2 "bad" [] (by with_unfolding_all decide)

/-! ## JSON extraction from LLM responses
(`EV2REvaluator._extract_json_from_response` and
`query_claude_sonnet_api`, ev2r_recall.py lines 90-138) -/

/-- The fence-stripping prelude of `_extract_json_from_response`
(lines 92-105): strip, remove a leading ` ```json ` or ` ``` ` fence and its
closing ` ``` ` when present, strip again. -/
def stripFence (s : String) : String :=
  let t := s.trim
  if t.startsWith "```json" then
    let t1 := t.drop 7
    let t2 := if t1.endsWith "```" then t1.dropRight 3 else t1
    t2.trim
  else if t.startsWith "```" then
    let t1 := t.drop 3
    let t2 := if t1.endsWith "```" then t1.dropRight 3 else t1
    t2.trim
  else t

/-- Index of the first occurrence of a character. -/
def findFirstIdx (c : Char) : List Char → Option ℕ
  | [] => none
  | x :: xs => if x = c then some 0 else (findFirstIdx c xs).map (· + 1)

/-- Index of the last occurrence of a character. -/
def findLastIdx (c : Char) : List Char → Option ℕ
  | [] => none
  | x :: xs =>
    match findLastIdx c xs with
    | some j => some (j + 1)
    | none => if x = c then some 0 else none

/-- Python `str.find` with its `-1` convention. -/
def pyFind (cs : List Char) (c : Char) : Int :=
  match findFirstIdx c cs with
  | some i => (i : Int)
  | none => -1

/-- Python `str.rfind` with its `-1` convention. -/
def pyRFind (cs : List Char) (c : Char) : Int :=
  match findLastIdx c cs with
  | some i => (i : Int)
  | none => -1

/-- The JSON-boundary selection of `_extract_json_from_response` (lines
107-117): `json_start = find('\x7b')`, `json_end = rfind('\x7d') + 1`, take
the slice when `json_start != -1 and json_end > json_start`, else raise
(`none`). -/
def sliceJson (t : String) : Option String :=
  let jsonStart := pyFind t.data '\x7b'
  let jsonEnd := pyRFind t.data '\x7d' + 1
  if jsonStart ≠ -1 ∧ jsonStart < jsonEnd then
    some (String.mk ((t.data.drop jsonStart.toNat).take
      (jsonEnd - jsonStart).toNat))
  else none

/-- The whole of `_extract_json_from_response` (lines 90-117): the Python
reassigns `response_text` to the fence-stripped text before locating the
JSON boundaries. -/
def extractJsonText (s : String) : Option String :=
  sliceJson (stripFence s)

/-- The value returned by `query_claude_sonnet_api`: a parsed payload, a
structured error with the raw response attached, or a bare error (API call
itself failed). -/
inductive ApiResult (α : Type) where
  | ok (v : α)
  | errorRaw (msg raw : String)
  | errorOnly (msg : String)
deriving DecidableEq

/-- The raw-response truncation of the error branch (lines 133-135). -/
def truncateRaw (s : String) : String :=
  if 500 < s.length then s.take 500 ++ "..." else s

/-- Dispatch on the result of `json.loads` inside the `try` of
`query_claude_sonnet_api`: a decoding failure lands in the
`JSONDecodeError` handler (lines 130-136). -/
def decodeStep {α : Type} (text : String) : Option α → ApiResult α
  | none => .errorRaw "JSON parsing failed" (truncateRaw text)
  | some v => .ok v

/-- Dispatch on the result of `_extract_json_from_response`: a `ValueError`
(no JSON found) lands in the same handler (lines 130-136), otherwise the
extracted text is decoded. -/
def extractStep {α : Type} (jsonLoads : String → Option α) (text : String) :
    Option String → ApiResult α
  | none => .errorRaw "JSON parsing failed" (truncateRaw text)
  | some sub => decodeStep text (jsonLoads sub)

/-- Embedding of `query_claude_sonnet_api` (lines 119-138): `apiResponse =
none` models the API call itself raising (the generic `except` branch);
otherwise the response text goes through `_extract_json_from_response` and
`json.loads` (the `jsonLoads` parameter, `none` for a `JSONDecodeError`);
extraction or decoding failures return the structured error value carrying
the (truncated) raw response, and no exception escapes. -/
def query_claude_sonnet_api {α : Type} (jsonLoads : String → Option α)
    (apiResponse : Option String) : ApiResult α :=
  match apiResponse with
  | none => .errorOnly "Failed to generate Q&A pairs"
  | some text => extractStep jsonLoads text (extractJsonText text)

lemma findFirstIdx_eq_some (c : Char) :
    ∀ (cs : List Char) (i : ℕ), findFirstIdx c cs = some i ↔
      (i < cs.length ∧ cs.getD i ' ' = c ∧ ∀ k, k < i → cs.getD k ' ' ≠ c) := by
  intro cs
  induction cs with
  | nil => intro i; simp [findFirstIdx]
  | cons x xs ih =>
    intro i
    rw [findFirstIdx]
    by_cases hx : x = c
    · rw [if_pos hx]
      constructor
      · intro h
        injection h with h
        subst h
        exact ⟨by simp, by simpa using hx, fun k hk => absurd hk (by omega)⟩
      · rintro ⟨hlen, hget, hmin⟩
        cases i with
        | zero => rfl
        | succ i => exact absurd (by simpa using hx) (hmin 0 (by omega))
    · rw [if_neg hx]
      constructor
      · intro h
        rcases Option.map_eq_some'.mp h with ⟨i0, hi0, rfl⟩
        obtain ⟨h1, h2, h3⟩ := (ih i0).mp hi0
        refine ⟨by simpa using Nat.succ_lt_succ h1, by simpa using h2, ?_⟩
        intro k hk
        cases k with
        | zero => simpa using hx
        | succ k => simpa using h3 k (by omega)
      · rintro ⟨hlen, hget, hmin⟩
        cases i with
        | zero => exact absurd (by simpa using hget) hx
        | succ i =>
          rw [(ih i).mpr ⟨by simpa using hlen, by simpa using hget,
            fun k hk => by simpa using hmin (k + 1) (by omega)⟩]
          rfl

lemma findFirstIdx_eq_none (c : Char) :
    ∀ (cs : List Char), findFirstIdx c cs = none ↔
      ∀ k, k < cs.length → cs.getD k ' ' ≠ c := by
  intro cs
  induction cs with
  | nil => simp [findFirstIdx]
  | cons x xs ih =>
    rw [findFirstIdx]
    by_cases hx : x = c
    · rw [if_pos hx]
      constructor
      · intro h; cases h
      · intro h
        exact absurd (by simpa using hx) (h 0 (by simp))
    · rw [if_neg hx]
      constructor
      · intro h k hk
        cases k with
        | zero => simpa using hx
        | succ k =>
          have := Option.map_eq_none'.mp h
          simpa using (ih.mp this) k (by simpa using hk)
      · intro h
        rw [Option.map_eq_none']
        rw [ih]
        intro k hk
        simpa using h (k + 1) (by simpa using hk)

lemma findLastIdx_some_bounds (c : Char) :
    ∀ (cs : List Char) (j : ℕ), findLastIdx c cs = some j →
      j < cs.length ∧ cs.getD j ' ' = c := by
  intro cs
  induction cs with
  | nil => intro j h; cases h
  | cons x xs ih =>
    intro j h
    rw [findLastIdx] at h
    cases hrec : findLastIdx c xs with
    | some j0 =>
      rw [hrec] at h
      injection h with h
      subst h
      obtain ⟨h1, h2⟩ := ih j0 hrec
      exact ⟨by simpa using Nat.succ_lt_succ h1, by simpa using h2⟩
    | none =>
      rw [hrec] at h
      by_cases hx : x = c
      · rw [if_pos hx] at h
        injection h with h
        subst h
        exact ⟨by simp, by simpa using hx⟩
      · rw [if_neg hx] at h
        cases h

lemma findLastIdx_eq_none (c : Char) :
    ∀ (cs : List Char), findLastIdx c cs = none ↔
      ∀ k, k < cs.length → cs.getD k ' ' ≠ c := by
  intro cs
  induction cs with
  | nil => simp [findLastIdx]
  | cons x xs ih =>
    rw [findLastIdx]
    cases hrec : findLastIdx c xs with
    | some j0 =>
      obtain ⟨h1, h2⟩ := findLastIdx_some_bounds c xs j0 hrec
      constructor
      · intro h; cases h
      · intro h
        exact absurd (by simpa using h2)
          (h (j0 + 1) (by simpa using Nat.succ_lt_succ h1))
    | none =>
      by_cases hx : x = c
      · rw [if_pos hx]
        constructor
        · intro h; cases h
        · intro h
          exact absurd (by simpa using hx) (h 0 (by simp))
      · rw [if_neg hx]
        constructor
        · intro _ k hk
          cases k with
          | zero => simpa using hx
          | succ k => simpa using (ih.mp hrec) k (by simpa using hk)
        · intro _; rfl

lemma findLastIdx_eq_some (c : Char) :
    ∀ (cs : List Char) (j : ℕ), findLastIdx c cs = some j ↔
      (j < cs.length ∧ cs.getD j ' ' = c ∧
        ∀ k, j < k → k < cs.length → cs.getD k ' ' ≠ c) := by
  intro cs
  induction cs with
  | nil => intro j; simp [findLastIdx]
  | cons x xs ih =>
    intro j
    rw [findLastIdx]
    cases hrec : findLastIdx c xs with
    | some j0 =>
      obtain ⟨h1, h2, h3⟩ := (ih j0).mp hrec
      constructor
      · intro h
        injection h with h
        subst h
        refine ⟨by simpa using Nat.succ_lt_succ h1, by simpa using h2, ?_⟩
        intro k hk1 hk2
        cases k with
        | zero => omega
        | succ k => simpa using h3 k (by omega) (by simpa using hk2)
      · rintro ⟨hlen, hget, hmax⟩
        cases j with
        | zero =>
          exact absurd (by simpa using h2)
            (hmax (j0 + 1) (by omega) (by simpa using Nat.succ_lt_succ h1))
        | succ j =>
          have heq : j = j0 := by
            by_contra hne
            rcases Nat.lt_or_ge j j0 with hlt | hge
            · exact hmax (j0 + 1) (by omega)
                (by simpa using Nat.succ_lt_succ h1) (by simpa using h2)
            · exact h3 j (by omega) (by simpa using hlen) (by simpa using hget)
          rw [heq]
    | none =>
      have hnone := (findLastIdx_eq_none c xs).mp hrec
      by_cases hx : x = c
      · rw [if_pos hx]
        constructor
        · intro h
          injection h with h
          subst h
          refine ⟨by simp, by simpa using hx, ?_⟩
          intro k hk1 hk2
          cases k with
          | zero => omega
          | succ k => simpa using hnone k (by simpa using hk2)
        · rintro ⟨hlen, hget, hmax⟩
          cases j with
          | zero => rfl
          | succ j =>
            exact absurd (by simpa using hget) (hnone j (by simpa using hlen))
      · rw [if_neg hx]
        constructor
        · intro h; cases h
        · rintro ⟨hlen, hget, hmax⟩
          cases j with
          | zero => exact absurd (by simpa using hget) hx
          | succ j =>
            exact absurd (by simpa using hget) (hnone j (by simpa using hlen))

/-- Characterization of the extracted JSON text: it succeeds exactly when the
fence-stripped response holds an opening brace at some position `i` and a
closing brace at some later (or equal) position `j`, `i` the first opening
brace and `j` the last closing brace, and the result is the slice from `i`
through `j` inclusive. -/
lemma sliceJson_spec (t sub : String) :
    sliceJson t = some sub ↔
      ∃ i j, i ≤ j ∧ j < t.data.length ∧
        t.data.getD i ' ' = '\x7b' ∧
        t.data.getD j ' ' = '\x7d' ∧
        (∀ k, k < i → t.data.getD k ' ' ≠ '\x7b') ∧
        (∀ k, j < k → k < t.data.length →
          t.data.getD k ' ' ≠ '\x7d') ∧
        sub = String.mk ((t.data.drop i).take (j + 1 - i)) := by
  simp only [sliceJson, pyFind, pyRFind]
  cases hf : findFirstIdx '\x7b' t.data with
  | none =>
    have hno := (findFirstIdx_eq_none _ _).mp hf
    simp only [ne_eq, not_true_eq_false, false_and, if_false]
    constructor
    · intro h; cases h
    · rintro ⟨i, j, hij, hjlen, hgi, hgj, hmin, hmax, hsub⟩
      exact absurd hgi (hno i (by omega))
  | some i0 =>
    obtain ⟨hi0len, hi0get, hi0min⟩ := (findFirstIdx_eq_some _ _ _).mp hf
    cases hl : findLastIdx '\x7d' t.data with
    | none =>
      have hno := (findLastIdx_eq_none _ _).mp hl
      have hcond : ¬ (((i0 : Int) ≠ -1) ∧ (i0 : Int) < -1 + 1) := by omega
      rw [if_neg hcond]
      constructor
      · intro h; cases h
      · rintro ⟨i, j, hij, hjlen, hgi, hgj, hmin, hmax, hsub⟩
        exact absurd hgj (hno j hjlen)
    | some j0 =>
      obtain ⟨hj0len, hj0get, hj0max⟩ := (findLastIdx_eq_some _ _ _).mp hl
      by_cases hle : i0 ≤ j0
      · have hcond : (((i0 : Int) ≠ -1) ∧ (i0 : Int) < (j0 : Int) + 1) := by
          omega
        rw [if_pos hcond]
        have htoNat1 : ((i0 : Int)).toNat = i0 := by omega
        have htoNat2 : ((j0 : Int) + 1 - (i0 : Int)).toNat = j0 + 1 - i0 := by
          omega
        constructor
        · intro h
          injection h with h
          exact ⟨i0, j0, hle, hj0len, hi0get, hj0get, hi0min, hj0max, by
            rw [← h, htoNat1, htoNat2]⟩
        · rintro ⟨i, j, hij, hjlen, hgi, hgj, hmin, hmax, hsub⟩
          have hieq : i = i0 := by
            by_contra hne
            rcases Nat.lt_or_ge i i0 with hlt | hge
            · exact hi0min i hlt hgi
            · exact hmin i0 (by omega) hi0get
          have hjeq : j = j0 := by
            by_contra hne
            rcases Nat.lt_or_ge j j0 with hlt | hge
            · exact hmax j0 hlt hj0len hj0get
            · exact hj0max j (by omega) hjlen hgj
          subst hieq; subst hjeq
          rw [htoNat1, htoNat2, ← hsub]
      · have hcond : ¬ (((i0 : Int) ≠ -1) ∧ (i0 : Int) < (j0 : Int) + 1) := by
          omega
        rw [if_neg hcond]
        constructor
        · intro h; cases h
        · rintro ⟨i, j, hij, hjlen, hgi, hgj, hmin, hmax, hsub⟩
          have hieq : i = i0 := by
            by_contra hne
            rcases Nat.lt_or_ge i i0 with hlt | hge
            · exact hi0min i hlt hgi
            · exact hmin i0 (by omega) hi0get
          have hjeq : j = j0 := by
            by_contra hne
            rcases Nat.lt_or_ge j j0 with hlt | hge
            · exact hmax j0 hlt hj0len hj0get
            · exact hj0max j (by omega) hjlen hgj
          omega

/-- C7: for every LLM response string, JSON extraction operates on the
fence-stripped text and returns exactly the slice from the first opening
brace to the last closing brace (succeeding iff such a well-ordered pair of
braces exists); and for every judged-scoring call, a response from which no
JSON can be extracted, or whose extracted text fails JSON decoding, yields
the structured error value carrying the "JSON parsing failed" message and
the (truncated) raw response; the call always returns one of the three
structured outcomes, never an escaping exception. -/
theorem c7_json_extraction_and_error_shield {α : Type}
    (jsonLoads : String → Option α) :
    (∀ s sub, extractJsonText s = some sub ↔
      ∃ i j, i ≤ j ∧ j < (stripFence s).data.length ∧
        (stripFence s).data.getD i ' ' = '\x7b' ∧
        (stripFence s).data.getD j ' ' = '\x7d' ∧
        (∀ k, k < i → (stripFence s).data.getD k ' ' ≠ '\x7b') ∧
        (∀ k, j < k → k < (stripFence s).data.length →
          (stripFence s).data.getD k ' ' ≠ '\x7d') ∧
        sub = String.mk (((stripFence s).data.drop i).take (j + 1 - i))) ∧
    (∀ text, extractJsonText text = none →
      query_claude_sonnet_api jsonLoads (some text) =
        ApiResult.errorRaw "JSON parsing failed" (truncateRaw text)) ∧
    (∀ text sub, extractJsonText text = some sub → jsonLoads sub = none →
      query_claude_sonnet_api jsonLoads (some text) =
        ApiResult.errorRaw "JSON parsing failed" (truncateRaw text)) ∧
    (∀ resp, (∃ v, query_claude_sonnet_api jsonLoads resp = ApiResult.ok v) ∨
      (∃ m raw, query_claude_sonnet_api jsonLoads resp =
        ApiResult.errorRaw m raw) ∨
      (∃ m, query_claude_sonnet_api jsonLoads resp = ApiResult.errorOnly m)) := by
  refine ⟨fun s sub => sliceJson_spec (stripFence s) sub, ?_, ?_, ?_⟩
  · intro text h
    show extractStep jsonLoads text (extractJsonText text) = _
    rw [h]
    rfl
  · intro text sub h1 h2
    show extractStep jsonLoads text (extractJsonText text) = _
    rw [h1]
    show decodeStep text (jsonLoads sub) = _
    rw [h2]
    rfl
  · intro resp
    cases resp with
    | none => exact Or.inr (Or.inr ⟨_, rfl⟩)
    | some text =>
      cases he : extractJsonText text with
      | none =>
        refine Or.inr (Or.inl ⟨"JSON parsing failed", truncateRaw text, ?_⟩)
        show extractStep jsonLoads text (extractJsonText text) = _
        rw [he]
        rfl
      | some sub =>
        cases hj : jsonLoads sub with
        | none =>
          refine Or.inr (Or.inl ⟨"JSON parsing failed", truncateRaw text, ?_⟩)
          show extractStep jsonLoads text (extractJsonText text) = _
          rw [he]
          show decodeStep text (jsonLoads sub) = _
          rw [hj]
          rfl
        | some v =>
          refine Or.inl ⟨v, ?_⟩
          show extractStep jsonLoads text (extractJsonText text) = _
          rw [he]
          show decodeStep text (jsonLoads sub) = _
          rw [hj]
          rfl

set_option maxRecDepth 40000 in
set_option maxHeartbeats 2000000 in
/-- Concrete instance of the C7 theorem: a fenced response whose body is a
JSON object is stripped and sliced to exactly that object, and a response
with no braces produces the structured parsing-failure error with the raw
response attached. -/
theorem c7_json_extraction_and_error_shield_witness :
    extractJsonText "```json\n \x7b\"a\": 1\x7d \n```" = some "\x7b\"a\": 1\x7d" ∧
    query_claude_sonnet_api (fun _ => (none : Option ℕ))
        (some "the model refused to answer") =
      ApiResult.errorRaw "JSON parsing failed" "the model refused to answer" := by
  refine ⟨by with_unfolding_all decide, ?_⟩
  have h := (c7_json_extraction_and_error_shield
    (fun _ => (none : Option ℕ))).2.1 "the model refused to answer"
    (by with_unfolding_all decide)
  rw [h]
  have : truncateRaw "the model refused to answer" =
      "the model refused to answer" := by with_unfolding_all decide
  rw [this]

/- ### Judge-response score derivation (ev2r_recall.py lines 192-258:
`calculate_atomic_score_prec_recall_openai_response`,
`calculate_question_score_prec_recall_claude_response`,
`calculate_prediction_scores`, `calculate_question_scores`) -/

/-- A JSON value as it appears in a judge-response dictionary: a number, a
string, or null.  Division of non-numeric values raises a `TypeError` in the
Python, modeled by `jdiv` returning `none`. -/
inductive JVal where
  | num (q : ℚ)
  | str (s : String)
  | jnull
deriving DecidableEq

/-- A judge-response dictionary: string keys to JSON values.  `d.lookup k`
models `d[k]`, with `none` for the `KeyError` of a missing key. -/
abbrev RDict := List (String × JVal)

/-- Python `/` on two dictionary values: defined only on two numbers with a
nonzero divisor; a zero divisor raises `ZeroDivisionError` and non-numeric
operands raise `TypeError`, both caught by the enclosing handler. -/
def jdiv : JVal → JVal → Option ℚ
  | .num a, .num b => if b = 0 then none else some (a / b)
  | _, _ => none

/-- Python dictionary assignment `d[k] = v`: replace the (first) binding of
`k` when present, otherwise append the new binding at the end. -/
def setKey : RDict → String → JVal → RDict
  | [], k, v => [(k, v)]
  | (k', v') :: d, k, v =>
    if k' = k then (k, v) :: d else (k', v') :: setKey d k v

/-- The judge response object handed to the score-derivation step: the
fields of `OpenAIResponse` that the step reads or copies (`response`, which
is either a raw string or an already-parsed dictionary, and the claim id
used downstream by `extract_ev2r_score`). -/
structure LLMResponse where
  id : ℕ
  response : Sum String RDict
deriving DecidableEq

/-- The deep copy returned on success: same id, `response` now a dictionary
carrying the derived fields. -/
structure ScoredResponse where
  id : ℕ
  response : RDict
deriving DecidableEq

/-- Lines 195-198 and 218-221: `json.loads` the response when it is a
string (`none` models a parse exception), otherwise use it as is. -/
def respDict (jsonLoads : String → Option RDict) :
    Sum String RDict → Option RDict
  | .inl s => jsonLoads s
  | .inr d => some d

/-- `response[k1] / response[k2]`: both key lookups (a missing key raises
`KeyError`) followed by the division. -/
def divOf (d : RDict) (k1 k2 : String) : Option ℚ :=
  (d.lookup k1).bind (fun a => (d.lookup k2).bind (fun b => jdiv a b))

/-- Common body of the two score-derivation functions (lines 192-213 and
215-236, identical except for the four key names): parse the response,
derive precision then recall, store both under `"precision"` and
`"recall"`; any exception on the way yields `none` (the Python prints the
exception and returns `None`). -/
def calcPrecRecall (jsonLoads : String → Option RDict)
    (pk1 pk2 rk1 rk2 : String) (r : LLMResponse) : Option ScoredResponse :=
  (respDict jsonLoads r.response).bind (fun d =>
    (divOf d pk1 pk2).bind (fun p =>
      (divOf d rk1 rk2).bind (fun rc =>
        some ⟨r.id, setKey (setKey d "precision" (.num p)) "recall"
          (.num rc)⟩)))

/-- `calculate_atomic_score_prec_recall_openai_response` (lines 215-236). -/
def calculate_atomic_score_prec_recall (jsonLoads : String → Option RDict)
    (r : LLMResponse) : Option ScoredResponse :=
  calcPrecRecall jsonLoads "support predicted evidence"
    "facts count predicted evidence" "support reference evidence"
    "facts count reference evidence" r

/-- `calculate_question_score_prec_recall_claude_response`
(lines 192-213). -/
def calculate_question_score_prec_recall (jsonLoads : String → Option RDict)
    (r : LLMResponse) : Option ScoredResponse :=
  calcPrecRecall jsonLoads "support predicted questions"
    "facts count predicted questions" "support reference questions"
    "facts count reference questions" r

/-- `calculate_prediction_scores` (lines 250-258): every response is scored
independently and the per-cell result (possibly `None`) is appended
unconditionally. -/
def calculate_prediction_scores (jsonLoads : String → Option RDict)
    (responses : List LLMResponse) : List (Option ScoredResponse) :=
  responses.map (calculate_atomic_score_prec_recall jsonLoads)

/-- `calculate_question_scores` (lines 238-248). -/
def calculate_question_scores (jsonLoads : String → Option RDict)
    (responses : List LLMResponse) : List (Option ScoredResponse) :=
  responses.map (calculate_question_score_prec_recall jsonLoads)

lemma lookup_setKey_self (d : RDict) (k : String) (v : JVal) :
    (setKey d k v).lookup k = some v := by
  induction d with
  | nil => simp [setKey, List.lookup]
  | cons p d ih =>
    obtain ⟨k', v'⟩ := p
    rw [setKey]
    by_cases h : k' = k
    · rw [if_pos h]
      simp [List.lookup]
    · rw [if_neg h]
      simp only [List.lookup]
      have hbe : (k == k') = false := by
        simp only [beq_eq_false_iff_ne, ne_eq]
        exact fun he => h he.symm
      rw [hbe]
      exact ih

lemma lookup_setKey_other (d : RDict) (k k2 : String) (v : JVal)
    (h : k2 ≠ k) : (setKey d k v).lookup k2 = d.lookup k2 := by
  have hbk : (k2 == k) = false := by
    simp only [beq_eq_false_iff_ne, ne_eq]
    exact h
  induction d with
  | nil =>
    simp only [setKey, List.lookup]
    rw [hbk]
  | cons p d ih =>
    obtain ⟨k', v'⟩ := p
    rw [setKey]
    by_cases hk : k' = k
    · rw [if_pos hk]
      simp only [List.lookup]
      have hbk2 : (k2 == k') = false := by
        simp only [beq_eq_false_iff_ne, ne_eq]
        rw [hk]
        exact h
      rw [hbk, hbk2]
    · rw [if_neg hk]
      simp only [List.lookup]
      cases hbe : k2 == k' with
      | true => rfl
      | false => exact ih

lemma jdiv_eq_some (v w : JVal) (q : ℚ) :
    jdiv v w = some q ↔
      ∃ a b, v = JVal.num a ∧ w = JVal.num b ∧ b ≠ 0 ∧ q = a / b := by
  cases v with
  | num a =>
    cases w with
    | num b =>
      rw [jdiv]
      by_cases hb : b = 0
      · rw [if_pos hb]
        constructor
        · intro h; cases h
        · rintro ⟨a', b', ha, hbeq, hb', hq⟩
          injection ha with ha; injection hbeq with hbeq
          exact absurd (hbeq ▸ hb) hb'
      · rw [if_neg hb]
        constructor
        · intro h
          injection h with h
          exact ⟨a, b, rfl, rfl, hb, h.symm⟩
        · rintro ⟨a', b', ha, hbeq, hb', hq⟩
          injection ha with ha; injection hbeq with hbeq
          rw [hq, ha, hbeq]
    | str s =>
      simp only [jdiv]
      constructor
      · intro h; cases h
      · rintro ⟨a', b', ha, hbeq, hb', hq⟩; cases hbeq
    | jnull =>
      simp only [jdiv]
      constructor
      · intro h; cases h
      · rintro ⟨a', b', ha, hbeq, hb', hq⟩; cases hbeq
  | str s =>
    simp only [jdiv]
    constructor
    · intro h; cases h
    · rintro ⟨a', b', ha, hbeq, hb', hq⟩; cases ha
  | jnull =>
    simp only [jdiv]
    constructor
    · intro h; cases h
    · rintro ⟨a', b', ha, hbeq, hb', hq⟩; cases ha

lemma calcPrecRecall_success (jsonLoads : String → Option RDict)
    (pk1 pk2 rk1 rk2 : String) (r : LLMResponse) (d : RDict)
    (sp fp sr fr : ℚ) (hr : r.response = Sum.inr d)
    (h1 : d.lookup pk1 = some (JVal.num sp))
    (h2 : d.lookup pk2 = some (JVal.num fp)) (hfp : fp ≠ 0)
    (h3 : d.lookup rk1 = some (JVal.num sr))
    (h4 : d.lookup rk2 = some (JVal.num fr)) (hfr : fr ≠ 0) :
    ∃ out, calcPrecRecall jsonLoads pk1 pk2 rk1 rk2 r = some out ∧
      out.id = r.id ∧
      out.response.lookup "precision" = some (JVal.num (sp / fp)) ∧
      out.response.lookup "recall" = some (JVal.num (sr / fr)) := by
  have hd : respDict jsonLoads r.response = some d := by rw [hr]; rfl
  have hp : divOf d pk1 pk2 = some (sp / fp) := by
    rw [divOf, h1, Option.some_bind, h2, Option.some_bind, jdiv,
      if_neg hfp]
  have hq : divOf d rk1 rk2 = some (sr / fr) := by
    rw [divOf, h3, Option.some_bind, h4, Option.some_bind, jdiv,
      if_neg hfr]
  refine ⟨⟨r.id, setKey (setKey d "precision" (.num (sp / fp))) "recall"
    (.num (sr / fr))⟩, ?_, rfl, ?_, ?_⟩
  · rw [calcPrecRecall, hd, Option.some_bind, hp, Option.some_bind, hq,
      Option.some_bind]
  · rw [lookup_setKey_other _ _ _ _ (by decide), lookup_setKey_self]
  · rw [lookup_setKey_self]

lemma calcPrecRecall_eq_none (jsonLoads : String → Option RDict)
    (pk1 pk2 rk1 rk2 : String) (r : LLMResponse) :
    calcPrecRecall jsonLoads pk1 pk2 rk1 rk2 r = none ↔
      respDict jsonLoads r.response = none ∨
      ∃ d, respDict jsonLoads r.response = some d ∧
        (divOf d pk1 pk2 = none ∨ divOf d rk1 rk2 = none) := by
  rw [calcPrecRecall]
  cases hd : respDict jsonLoads r.response with
  | none =>
    rw [Option.none_bind]
    exact ⟨fun _ => Or.inl rfl, fun _ => rfl⟩
  | some d =>
    rw [Option.some_bind]
    cases hp : divOf d pk1 pk2 with
    | none =>
      rw [Option.none_bind]
      exact ⟨fun _ => Or.inr ⟨d, rfl, Or.inl hp⟩, fun _ => rfl⟩
    | some p =>
      rw [Option.some_bind]
      cases hq : divOf d rk1 rk2 with
      | none =>
        rw [Option.none_bind]
        exact ⟨fun _ => Or.inr ⟨d, rfl, Or.inr hq⟩, fun _ => rfl⟩
      | some rc =>
        rw [Option.some_bind]
        constructor
        · intro h; cases h
        · rintro (h | ⟨d', hd', h⟩)
          · cases h
          · injection hd' with hd'
            subst hd'
            rcases h with h | h
            · rw [hp] at h; cases h
            · rw [hq] at h; cases h

/-- C8: precision and recall derived from a judge response are exactly
support over facts-count on the predicted and reference side respectively
(division defined only on two numbers with a nonzero divisor); a response
that cannot be parsed, lacks a needed field, or whose division fails in any
way is degraded to the unscored marker `none` (complete characterization);
and the batch functions score every cell independently, so one bad cell
leaves all the others scored. -/
theorem c8_judge_score_derivation_and_isolation
    (jsonLoads : String → Option RDict) :
    (∀ v w q, jdiv v w = some q ↔
      ∃ a b, v = JVal.num a ∧ w = JVal.num b ∧ b ≠ 0 ∧ q = a / b) ∧
    (∀ (r : LLMResponse) (d : RDict) (sp fp sr fr : ℚ),
      r.response = Sum.inr d →
      d.lookup "support predicted evidence" = some (JVal.num sp) →
      d.lookup "facts count predicted evidence" = some (JVal.num fp) →
      fp ≠ 0 →
      d.lookup "support reference evidence" = some (JVal.num sr) →
      d.lookup "facts count reference evidence" = some (JVal.num fr) →
      fr ≠ 0 →
      ∃ out, calculate_atomic_score_prec_recall jsonLoads r = some out ∧
        out.id = r.id ∧
        out.response.lookup "precision" = some (JVal.num (sp / fp)) ∧
        out.response.lookup "recall" = some (JVal.num (sr / fr))) ∧
    (∀ (r : LLMResponse) (d : RDict) (sp fp sr fr : ℚ),
      r.response = Sum.inr d →
      d.lookup "support predicted questions" = some (JVal.num sp) →
      d.lookup "facts count predicted questions" = some (JVal.num fp) →
      fp ≠ 0 →
      d.lookup "support reference questions" = some (JVal.num sr) →
      d.lookup "facts count reference questions" = some (JVal.num fr) →
      fr ≠ 0 →
      ∃ out, calculate_question_score_prec_recall jsonLoads r = some out ∧
        out.id = r.id ∧
        out.response.lookup "precision" = some (JVal.num (sp / fp)) ∧
        out.response.lookup "recall" = some (JVal.num (sr / fr))) ∧
    (∀ r, calculate_atomic_score_prec_recall jsonLoads r = none ↔
      respDict jsonLoads r.response = none ∨
      ∃ d, respDict jsonLoads r.response = some d ∧
        (divOf d "support predicted evidence"
          "facts count predicted evidence" = none ∨
         divOf d "support reference evidence"
          "facts count reference evidence" = none)) ∧
    (∀ l1 r l2, calculate_prediction_scores jsonLoads (l1 ++ r :: l2) =
      calculate_prediction_scores jsonLoads l1 ++
        calculate_atomic_score_prec_recall jsonLoads r ::
          calculate_prediction_scores jsonLoads l2) ∧
    (∀ l1 r l2, calculate_question_scores jsonLoads (l1 ++ r :: l2) =
      calculate_question_scores jsonLoads l1 ++
        calculate_question_score_prec_recall jsonLoads r ::
          calculate_question_scores jsonLoads l2) := by
  refine ⟨jdiv_eq_some, ?_, ?_, ?_, ?_, ?_⟩
  · intro r d sp fp sr fr hr h1 h2 hfp h3 h4 hfr
    exact calcPrecRecall_success jsonLoads _ _ _ _ r d sp fp sr fr hr
      h1 h2 hfp h3 h4 hfr
  · intro r d sp fp sr fr hr h1 h2 hfp h3 h4 hfr
    exact calcPrecRecall_success jsonLoads _ _ _ _ r d sp fp sr fr hr
      h1 h2 hfp h3 h4 hfr
  · intro r
    exact calcPrecRecall_eq_none jsonLoads _ _ _ _ r
  · intro l1 r l2
    simp [calculate_prediction_scores]
  · intro l1 r l2
    simp [calculate_question_scores]

set_option maxRecDepth 40000 in
/-- Concrete instance of the C8 theorem: a well-formed judge dictionary
with 3 of 4 predicted facts supported and 1 of 2 reference facts supported
scores to precision 3/4 and recall 1/2 under the stated id. -/
theorem c8_judge_score_derivation_and_isolation_witness :
    ∃ out, calculate_atomic_score_prec_recall (fun _ => none)
        ⟨5, Sum.inr [("support predicted evidence", JVal.num 3),
          ("facts count predicted evidence", JVal.num 4),
          ("support reference evidence", JVal.num 1),
          ("facts count reference evidence", JVal.num 2)]⟩ = some out ∧
      out.id = 5 ∧
      out.response.lookup "precision" = some (JVal.num (3 / 4)) ∧
      out.response.lookup "recall" = some (JVal.num (1 / 2)) :=
  (c8_judge_score_derivation_and_isolation (fun _ => none)).2.1
    ⟨5, Sum.inr [("support predicted evidence", JVal.num 3),
      ("facts count predicted evidence", JVal.num 4),
      ("support reference evidence", JVal.num 1),
      ("facts count reference evidence", JVal.num 2)]⟩
    [("support predicted evidence", JVal.num 3),
      ("facts count predicted evidence", JVal.num 4),
      ("support reference evidence", JVal.num 1),
      ("facts count reference evidence", JVal.num 2)]
    3 4 1 2 rfl (by with_unfolding_all decide)
    (by with_unfolding_all decide) (by with_unfolding_all decide)
    (by with_unfolding_all decide) (by with_unfolding_all decide)
    (by with_unfolding_all decide)

end AFCheck
